import Mathlib

/-!
Verification development for the Baker incremental build driver
(`baker.py`).  The Python program is shallowly embedded: the heap of
`Node` objects becomes a store (a list indexed by allocation order,
standing for Python object identity), mutation becomes explicit state
passing, `dict`s become association lists, and every recursive
procedure that walks the (possibly cyclic, pre-reduction) node graph
takes an explicit fuel argument; `.error .fuel` marks fuel exhaustion
and corresponds to Python non-termination / stack overflow, while
`.error .pyError` marks an uncaught Python runtime exception raised on
malformed internal state (AttributeError / IndexError / KeyError /
ValueError on `list.remove`).  Deliberate `raise` sites get their own
error constructors.  Mutually recursive walks are defunctionalized
over small task types so that the recursion is structural in the fuel.

The classifier (`classify.py`) is external to the repository: its
output records are the inputs of the model, one `NodeData` per source,
carrying the source path in `filename` exactly as `gen_classes`
receives it.
-/

namespace Baker

/-- `utility.Type`, the closed set of source kinds. -/
inductive Ty
  | plain
  | module
  | module_partition
  | module_impl
deriving DecidableEq, Repr

/-- The classification record attached to a node (`node.data` in the
Python code): kind, module identity, source path, the raw ordered
dependency identifier list (`data['post']`), and required header
units. -/
structure NodeData where
  type : Ty
  module : String
  filename : String
  post : List String
  header_units : List String
deriving DecidableEq, Repr

/-- A slot of a `children` list: either a still-unresolved dependency
identifier string or a resolved reference to another node (a store
index, standing for a Python object reference). -/
inductive Child
  | ident : String → Child
  | node : Nat → Child
deriving DecidableEq, Repr

/-- `node.Node`: owning parent reference (nullable), ordered children,
and the classification record. -/
structure Node where
  parent : Option Nat := none
  children : List Child := []
  data : NodeData
deriving DecidableEq, Repr

def defaultData : NodeData := ⟨Ty.plain, "", "", [], []⟩

/-- The node store: the Python heap of `Node` objects of one target
build, in allocation order. -/
abbrev Store : Type := List Node

/-- Dereference a node (Python attribute reads never fail on live
references; the default value is never hit in a well-formed run). -/
def getN (st : Store) (n : Nat) : Node :=
  st.getD n { data := defaultData }

/-- In-place mutation of one node. -/
def setN (st : Store) (n : Nat) (v : Node) : Store :=
  st.set n v

instance {ε α : Type} [DecidableEq ε] [DecidableEq α] : DecidableEq (Except ε α) :=
  fun a b =>
    match a, b with
    | .error e, .error e' =>
      if h : e = e' then .isTrue (by rw [h]) else .isFalse (by simp [h])
    | .ok v, .ok v' =>
      if h : v = v' then .isTrue (by rw [h]) else .isFalse (by simp [h])
    | .error _, .ok _ => .isFalse (by simp)
    | .ok _, .error _ => .isFalse (by simp)

/-- First-match lookup in a string-keyed association list (Python
`dict` read). -/
def lookupS {α : Type} (k : String) : List (String × α) → Option α
  | [] => none
  | (k', v) :: t => if k' = k then some v else lookupS k t

/-- Python `dict` write: replace the first binding of `k`, else append. -/
def insertD {α : Type} (k : String) (v : α) : List (String × α) → List (String × α)
  | [] => [(k, v)]
  | (k', v') :: t => if k' = k then (k', v) :: t else (k', v') :: insertD k v t

/-- First-match lookup in a node-keyed association list (the
`self.node_depth` dict, keyed by node identity). -/
def lookupN (k : Nat) : List (Nat × Nat) → Option Nat
  | [] => none
  | (k', v) :: t => if k' = k then some v else lookupN k t

/-- Write to a node-keyed association list. -/
def insertN (k : Nat) (v : Nat) : List (Nat × Nat) → List (Nat × Nat)
  | [] => [(k, v)]
  | (k', v') :: t => if k' = k then (k', v) :: t else (k', v') :: insertN k v t

/-- `classes[Type.module_impl]` update: start or extend the per-module
list of implementation units. -/
def appendImpl (k : String) (i : Nat) : List (String × List Nat) → List (String × List Nat)
  | [] => [(k, [i])]
  | (k', l) :: t => if k' = k then (k', l ++ [i]) :: t else (k', l) :: appendImpl k i t

/-- Python `set.add` for strings, modelled with insertion order. -/
def addSet (s : String) (l : List String) : List String :=
  if s ∈ l then l else l ++ [s]

/-! String primitives, implemented over the character list so that the
kernel can evaluate them; each mirrors the Python `str` method the
source uses. -/

def isPrefixL : List Char → List Char → Bool
  | [], _ => true
  | _ :: _, [] => false
  | a :: as, b :: bs => if a = b then isPrefixL as bs else false

def containsL (n : List Char) : List Char → Bool
  | [] => n.isEmpty
  | c :: t => isPrefixL n (c :: t) || containsL n t

def containsCharL (c : Char) : List Char → Bool
  | [] => false
  | a :: t => if a = c then true else containsCharL c t

def splitOnCharL (sep : Char) : List Char → List (List Char)
  | [] => [[]]
  | a :: t =>
    let r := splitOnCharL sep t
    if a = sep then [] :: r
    else
      match r with
      | [] => [[a]]
      | h :: rt => (a :: h) :: rt

/-- `s.endswith(suffix)`. -/
def strEndsWith (s suffix : String) : Bool :=
  isPrefixL suffix.toList.reverse s.toList.reverse

/-- `s.startswith(head)`. -/
def strStartsWith (s head : String) : Bool :=
  isPrefixL head.toList s.toList

/-- `c in s` for a single character. -/
def strContainsChar (s : String) (c : Char) : Bool :=
  containsCharL c s.toList

/-- `s.split(sep)` for a one-character separator. -/
def splitOnChar (sep : Char) (s : String) : List String :=
  (splitOnCharL sep s.toList).map String.mk

/-- `s[n:]`. -/
def strDrop (s : String) (n : Nat) : String :=
  String.mk (s.toList.drop n)

/-- `s[:-n]` for `n ≤ len(s)`. -/
def strDropRight (s : String) (n : Nat) : String :=
  String.mk (s.toList.take (s.toList.length - n))

/-- `int(s)` on the canonical digit strings the program generates. -/
def strToNat? (s : String) : Option Nat :=
  match s.toList with
  | [] => none
  | cs =>
    if cs.all (fun c => c.isDigit) then
      some (cs.foldl (fun a c => a * 10 + (c.toNat - 48)) 0)
    else none

def replaceL (pat rep : List Char) : List Char → List Char
  | [] => []
  | c :: t =>
    if h : isPrefixL pat (c :: t) ∧ pat ≠ [] then
      rep ++ replaceL pat rep ((c :: t).drop pat.length)
    else c :: replaceL pat rep t
termination_by l => l.length
decreasing_by
  · have hp : 0 < pat.length := List.length_pos.mpr h.2
    simp only [List.length_drop, List.length_cons]
    omega
  · simp

/-- `s.replace(pat, rep)` for a non-empty pattern. -/
def strReplace (s pat rep : String) : String :=
  String.mk (replaceL pat.toList rep.toList s.toList)

/-- `self.classes`: plain sources as a list (Python builds a set of
fresh objects and converts it to a list; the iteration order of that
set is unspecified, so insertion order is one faithful instance — the
`'@' + index` sentinels are produced and consumed against the same
list, so all downstream behaviour is order-consistent), interfaces and
partitions keyed by module identity, implementation units keyed by
module name. -/
structure Classes where
  plain : List Nat
  module : List (String × Nat)
  module_partition : List (String × Nat)
  module_impl : List (String × List Nat)
deriving DecidableEq, Repr

/-- Fatal outcomes.  `fuel` is exhaustion of the termination fuel
(Python non-termination); `pyError` is an uncaught Python runtime
exception on malformed state; the rest are the program's own `raise`
sites. -/
inductive BErr
  | fuel
  | badSuffix
  | badDir
  | rootNotPlain
  | foreignPartition (module child : String)
  | unresolved (child : String)
  | pyError
deriving DecidableEq, Repr

/-- `os.path.dirname` for the POSIX paths this program handles. -/
def posixDirname (p : String) : String :=
  match p.toList.reverse.findIdx? (· = '/') with
  | none => ""
  | some k =>
    let head := p.toList.take (p.toList.length - k)
    if head.all (· = '/') then String.mk head
    else String.mk ((head.reverse.dropWhile (· = '/')).reverse)

/-- `os.path.join` for one relative component. -/
def pathJoin (a b : String) : String :=
  if strStartsWith b "/" then b
  else if a = "" ∨ strEndsWith a "/" then a ++ b
  else a ++ "/" ++ b

/-- Python `str.removesuffix`. -/
def removeSuffix (s suffix : String) : String :=
  if suffix ≠ "" ∧ strEndsWith s suffix then strDropRight s suffix.toList.length else s

/-- `Baker.removesuffixes`. -/
def removesuffixes (suffixes : List String) (path : String) : String :=
  suffixes.foldl (fun acc suffix => removeSuffix acc suffix) path

/-- `module.split(':')[0]`. -/
def headSplit (s : String) : String :=
  match splitOnChar ':' s with
  | [] => ""
  | h :: _ => h

/-- State built by `gen_classes` for one target; the next allocation
index is the store length. -/
structure GenSt where
  store : Store
  classes : Classes
  root : Nat
  header_units : List String
  primary_dirs : List String
deriving DecidableEq, Repr

def initGenSt : GenSt :=
  { store := [], classes := ⟨[], [], [], []⟩, root := 0, header_units := [], primary_dirs := [] }

/-- One iteration of the `gen_classes` source loop (baker.py:320-352):
check the path shape, record directories and header units, allocate the
node, group it by kind, and check root eligibility when `index = 0`. -/
def gen_step (index : Nat) (g : GenSt) (data : NodeData) : Except BErr GenSt :=
  let source := data.filename
  if ¬(strEndsWith source ".cpp" ∨ strEndsWith source ".cppm") then .error .badSuffix
  else
    let primary_dir := posixDirname source
    if strContainsChar primary_dir '/' ∨ primary_dir = "" then .error .badDir
    else
      let g := { g with
        primary_dirs := addSet primary_dir g.primary_dirs,
        header_units := data.header_units.foldl (fun l h => addSet h l) g.header_units }
      let children := data.post.map Child.ident
      let node : Node := { parent := none, children := children, data := data }
      let nid := g.store.length
      let g := { g with store := g.store ++ [node] }
      let g :=
        match data.type with
        | .plain =>
          { g with classes := { g.classes with plain := g.classes.plain ++ [nid] } }
        | .module_impl =>
          { g with classes :=
            { g.classes with module_impl := appendImpl data.module nid g.classes.module_impl } }
        | .module =>
          { g with classes :=
            { g.classes with module := insertD data.module nid g.classes.module } }
        | .module_partition =>
          { g with classes :=
            { g.classes with module_partition := insertD data.module nid g.classes.module_partition } }
      if index = 0 then
        if data.type ≠ Ty.plain ∨ ¬strEndsWith source ".cpp" then .error .rootNotPlain
        else .ok { g with root := nid }
      else .ok g

/-- Body of `gen_classes`: run `gen_step` over the source list. -/
def gen_classes_go : Nat → GenSt → List NodeData → Except BErr GenSt
  | _, g, [] => .ok g
  | index, g, data :: rest =>
    match gen_step index g data with
    | .error e => .error e
    | .ok g => gen_classes_go (index + 1) g rest

def gen_classes (sources : List NodeData) : Except BErr GenSt :=
  gen_classes_go 0 initGenSt sources

/-- `attach_plain_sources` (baker.py:254-257): the root gains one
`'@' + index` sentinel edge per non-root plain source. -/
def attach_plain_go (root : Nat) (st : Store) : Nat → List Nat → Store
  | _, [] => st
  | index, p :: rest =>
    let st :=
      if p ≠ root then
        setN st root
          { getN st root with
            children := (getN st root).children ++ [.ident ("@" ++ toString index)] }
      else st
    attach_plain_go root st (index + 1) rest

def attach_plain_sources (root : Nat) (st : Store) (plains : List Nat) : Store :=
  attach_plain_go root st 0 plains

/-- `attach_module_impls` (baker.py:259-262): the root gains one
`'%' + module + ',' + index` sentinel edge per implementation unit. -/
def attach_module_impls (root : Nat) (st : Store) (impls : List (String × List Nat)) : Store :=
  impls.foldl
    (fun st kv =>
      (List.range kv.2.length).foldl
        (fun st idx =>
          setN st root
            { getN st root with
              children := (getN st root).children ++ [.ident ("%" ++ kv.1 ++ "," ++ toString idx)] })
        st)
    st

/-- One dependency identifier resolution step, the branch cascade of
`fill_children` (baker.py:276-292).  `module` is the importing node's
own `data['module']`. -/
def resolveIdent (cls : Classes) (module : String) (child : String) : Except BErr Nat :=
  match lookupS child cls.module with
  | some i => .ok i
  | none =>
    match lookupS child cls.module_partition with
    | some i =>
      if headSplit module ≠ headSplit child then .error (.foreignPartition module child)
      else .ok i
    | none =>
      if child = "" then .error .pyError
      else if strStartsWith child "%" then
        match splitOnChar ',' (strDrop child 1) with
        | [module_impl, index2] =>
          match strToNat? index2 with
          | some k =>
            match lookupS module_impl cls.module_impl with
            | some l =>
              match l.get? k with
              | some i => .ok i
              | none => .error .pyError
            | none => .error .pyError
          | none => .error .pyError
        | _ => .error .pyError
      else if strStartsWith child "@" then
        match strToNat? (strDrop child 1) with
        | some k =>
          match cls.plain.get? k with
          | some i => .ok i
          | none => .error .pyError
        | none => .error .pyError
      else .error (.unresolved child)

/-- First loop of `fill_children`: resolve the identifier entries of a
children list in place, skipping already-resolved entries. -/
def resolveChildren (cls : Classes) (module : String) : List Child → Except BErr (List Child)
  | [] => .ok []
  | .node i :: rest =>
    match resolveChildren cls module rest with
    | .error e => .error e
    | .ok r => .ok (.node i :: r)
  | .ident s :: rest =>
    match resolveIdent cls module s with
    | .error e => .error e
    | .ok i =>
      match resolveChildren cls module rest with
      | .error e => .error e
      | .ok r => .ok (.node i :: r)

/-- Resolution state: the store, the `self.node_depth` dict, the
deepest-node bookkeeping (`last_node_depth` starts at `-1`), and a
ghost `trace` of reach events `(visited node, its depth, child)` — one
event per iteration of the second loop of `fill_children`.  The trace
is instrumentation only: no definition reads it. -/
structure RSt where
  store : Store
  node_depth : List (Nat × Nat)
  last_node_depth : Int
  last_node : Nat
  trace : List (Nat × Nat × Nat)
deriving DecidableEq, Repr

/-- The depth/parent update of baker.py:296-298 followed by the ghost
event append. -/
def reachChild (st : RSt) (n depth c : Nat) : RSt :=
  let st := { st with trace := st.trace ++ [(n, depth, c)] }
  let doUpdate :=
    match lookupN c st.node_depth with
    | none => true
    | some d0 => depth > d0
  if doUpdate then
    { st with
      node_depth := insertN c depth st.node_depth,
      store := setN st.store c { getN st.store c with parent := some n } }
  else st

/-- Continuations of the `fill_children` recursion: entering a node at
a depth, or sitting inside its second loop with `k` indices of
`range(len(node.children))` still to process. -/
inductive FillTask
  | node (n depth : Nat)
  | kids (n depth k : Nat)
deriving DecidableEq, Repr

/-- `fill_children` (baker.py:264-299), defunctionalized over
`FillTask` so the recursion is structural in the fuel: entering a node
records the deepest discovery and resolves the node's identifiers
(first loop), then the `kids` steps reach and recurse into every child
(second loop). -/
def fill_run (cls : Classes) : Nat → RSt → FillTask → Except BErr RSt
  | 0, _, _ => .error .fuel
  | fuel + 1, st, .node n depth =>
    let st :=
      if (depth : Int) > st.last_node_depth then
        { st with last_node_depth := depth, last_node := n }
      else st
    let module := (getN st.store n).data.module
    match resolveChildren cls module (getN st.store n).children with
    | .error e => .error e
    | .ok cs =>
      let st := { st with store := setN st.store n { getN st.store n with children := cs } }
      fill_run cls fuel st (.kids n depth ((getN st.store n).children.length))
  | _ + 1, st, .kids _ _ 0 => .ok st
  | fuel + 1, st, .kids n depth (k + 1) =>
    let cs := (getN st.store n).children
    match cs.get? (cs.length - (k + 1)) with
    | none => .error .pyError
    | some (.ident _) => .error .pyError
    | some (.node c) =>
      let st := reachChild st n depth c
      match fill_run cls fuel st (.node c (depth + 1)) with
      | .error e => .error e
      | .ok st => fill_run cls fuel st (.kids n depth k)

def fill_children (cls : Classes) (fuel : Nat) (st : RSt) (n depth : Nat) :
    Except BErr RSt :=
  fill_run cls fuel st (.node n depth)

/-- The body of a `.node` step of `fill_run` after the deepest-node
bookkeeping, abstracted over the already-updated state — used to reason
about the step uniformly in both branches of the bookkeeping test. -/
def fillNodeBody (cls : Classes) (fuel : Nat) (n depth : Nat) (stA : RSt) : Except BErr RSt :=
  match resolveChildren cls (getN stA.store n).data.module (getN stA.store n).children with
  | .error e => .error e
  | .ok cs =>
    let stB := { stA with store := setN stA.store n { getN stA.store n with children := cs } }
    fill_run cls fuel stB (.kids n depth ((getN stB.store n).children.length))

/-- `build_dependency_tree` minus the synthetic-edge attachment (done
by the caller): empty `node_depth`, `last_node_depth = -1`, then
resolve from the root at depth 0.  (`self.last_node` is unset until
the first visit assigns it; the initial field value is irrelevant
because depth `0 > -1` always triggers the assignment.) -/
def build_dependency_tree (cls : Classes) (fuel : Nat) (st : Store) (root : Nat) :
    Except BErr RSt :=
  fill_children cls fuel
    { store := st, node_depth := [], last_node_depth := -1, last_node := root, trace := [] }
    root 0

/-- Scan of the `while True` loop of `clip_redundant` (baker.py:224-232):
find the first child whose current parent is not this node and delete
it; `none` means no stale edge remains.  A string child raises
`AttributeError` on `.parent` in Python. -/
def removeFirstStale (st : Store) (n : Nat) : List Child → Except BErr (Option (List Child))
  | [] => .ok none
  | c :: t =>
    match c with
    | .ident _ => .error .pyError
    | .node cid =>
      if (getN st cid).parent ≠ some n then .ok (some t)
      else
        match removeFirstStale st n t with
        | .error e => .error e
        | .ok none => .ok none
        | .ok (some t') => .ok (some (.node cid :: t'))

/-- The `while True` loop of `clip_redundant`: repeatedly delete the
first stale edge until none remains.  Each pass deletes one element,
so the loop runs at most `length + 1` scans; the budget argument makes
the recursion structural and `clip_redundant` passes exactly that
bound, so the budget can never actually run out. -/
def clipLoop (st : Store) (n : Nat) : Nat → List Child → Except BErr (List Child)
  | 0, _ => .error .fuel
  | budget + 1, cs =>
    match removeFirstStale st n cs with
    | .error e => .error e
    | .ok none => .ok cs
    | .ok (some cs') => clipLoop st n budget cs'

/-- Continuations of the `clip_redundant` recursion. -/
inductive ClipTask
  | node (n : Nat)
  | kids (cs : List Child)
deriving DecidableEq, Repr

/-- `clip_redundant` (baker.py:223-235), defunctionalized: drop stale
child edges at this node, then recurse into the retained children. -/
def clip_run : Nat → Store → ClipTask → Except BErr Store
  | 0, _, _ => .error .fuel
  | fuel + 1, st, .node n =>
    match clipLoop st n ((getN st n).children.length + 1) (getN st n).children with
    | .error e => .error e
    | .ok cs =>
      let st := setN st n { getN st n with children := cs }
      clip_run fuel st (.kids cs)
  | _ + 1, st, .kids [] => .ok st
  | fuel + 1, st, .kids (c :: rest) =>
    match c with
    | .ident _ => .error .pyError
    | .node cid =>
      match clip_run fuel st (.node cid) with
      | .error e => .error e
      | .ok st => clip_run fuel st (.kids rest)

def clip_redundant (fuel : Nat) (st : Store) (n : Nat) : Except BErr Store :=
  clip_run fuel st (.node n)

/-- The merge test and append of baker.py:216-219 for one
interface/child pair, reading both records through `self.classes`. -/
def fixStep (cls : Classes) (st : Store) (n cid : Nat) : Except BErr Store :=
  if (getN st n).data.type = Ty.module ∧ (getN st cid).data.type = Ty.module_partition then
    match lookupS ((getN st n).data.module) cls.module with
    | none => .error .pyError
    | some c_node =>
      match lookupS ((getN st cid).data.module) cls.module_partition with
      | none => .error .pyError
      | some c_partition_node =>
        .ok (setN st c_node
          { getN st c_node with
            data := { (getN st c_node).data with
              post := (getN st c_node).data.post ++ (getN st c_partition_node).data.post } })
  else .ok st

/-- Continuations of the `fix_module_partition_deps` recursion. -/
inductive FixTask
  | node (n : Nat)
  | kids (n : Nat) (cs : List Child)
deriving DecidableEq, Repr

/-- `fix_module_partition_deps` (baker.py:214-221), defunctionalized:
for every interface-node/partition-child edge, append the partition's
raw dependency list to the interface's raw dependency list, recursing
into every child in order. -/
def fix_run (cls : Classes) : Nat → Store → FixTask → Except BErr Store
  | 0, _, _ => .error .fuel
  | fuel + 1, st, .node n => fix_run cls fuel st (.kids n ((getN st n).children))
  | _ + 1, st, .kids _ [] => .ok st
  | fuel + 1, st, .kids n (c :: rest) =>
    match c with
    | .ident _ => .error .pyError
    | .node cid =>
      match fixStep cls st n cid with
      | .error e => .error e
      | .ok st =>
        match fix_run cls fuel st (.node cid) with
        | .error e => .error e
        | .ok st => fix_run cls fuel st (.kids n rest)

def fix_module_partition_deps (cls : Classes) (fuel : Nat) (st : Store) (n : Nat) :
    Except BErr Store :=
  fix_run cls fuel st (.node n)

/-- `build_compile_tree` (baker.py:210-212). -/
def build_compile_tree (cls : Classes) (fuel : Nat) (st : Store) (root : Nat) :
    Except BErr Store :=
  match clip_redundant fuel st root with
  | .error e => .error e
  | .ok st => fix_module_partition_deps cls fuel st root

/-- Continuations of the subtree walks `collect_modules` /
`collect_objects`. -/
inductive WalkTask
  | node (n : Nat)
  | kids (cs : List Child)
deriving DecidableEq, Repr

/-- `collect_modules` (baker.py:157-164), defunctionalized: pre-order
collection of `(module identity, BMI path)` pairs over a subtree. -/
def collect_modules_run (object_dir : String) : Nat → Store → WalkTask →
    List (String × String) → Except BErr (List (String × String))
  | 0, _, _, _ => .error .fuel
  | fuel + 1, st, .node n, collected =>
    let nd := getN st n
    let collected :=
      if nd.data.type = Ty.module ∨ nd.data.type = Ty.module_partition then
        collected ++
          [(nd.data.module, pathJoin object_dir (removeSuffix nd.data.filename ".cppm" ++ ".pcm"))]
      else collected
    collect_modules_run object_dir fuel st (.kids nd.children) collected
  | _ + 1, _, .kids [], collected => .ok collected
  | fuel + 1, st, .kids (c :: rest), collected =>
    match c with
    | .ident _ => .error .pyError
    | .node cid =>
      match collect_modules_run object_dir fuel st (.node cid) collected with
      | .error e => .error e
      | .ok collected => collect_modules_run object_dir fuel st (.kids rest) collected

def collect_modules (object_dir : String) (fuel : Nat) (st : Store) (n : Nat)
    (collected : List (String × String)) : Except BErr (List (String × String)) :=
  collect_modules_run object_dir fuel st (.node n) collected

/-- `collect_objects` (baker.py:181-185), defunctionalized: pre-order
collection of every node's object path. -/
def collect_objects_run (object_dir : String) : Nat → Store → WalkTask → List String →
    Except BErr (List String)
  | 0, _, _, _ => .error .fuel
  | fuel + 1, st, .node n, collected =>
    let nd := getN st n
    let collected :=
      collected ++ [removesuffixes [".cpp", ".cppm"] (pathJoin object_dir nd.data.filename) ++ ".o"]
    collect_objects_run object_dir fuel st (.kids nd.children) collected
  | _ + 1, _, .kids [], collected => .ok collected
  | fuel + 1, st, .kids (c :: rest), collected =>
    match c with
    | .ident _ => .error .pyError
    | .node cid =>
      match collect_objects_run object_dir fuel st (.node cid) collected with
      | .error e => .error e
      | .ok collected => collect_objects_run object_dir fuel st (.kids rest) collected

def collect_objects (object_dir : String) (fuel : Nat) (st : Store) (n : Nat)
    (collected : List String) : Except BErr (List String) :=
  collect_objects_run object_dir fuel st (.node n) collected

/-- The per-compilation module-interface flags of `Baker.compile`
(baker.py:150-153), derived from the subtree walk. -/
def moduleFileFlags (object_dir : String) (fuel : Nat) (st : Store) (n : Nat) :
    Except BErr (List String) :=
  match collect_modules object_dir fuel st n [] with
  | .error e => .error e
  | .ok collected => .ok (collected.map (fun sm => "-fmodule-file=" ++ sm.1 ++ "=" ++ sm.2))

/-- The per-compilation header-unit flags of `Baker.compile`
(baker.py:146-148). -/
def headerUnitFlags (header_units_dir : String) (nd : Node) : List String :=
  nd.data.header_units.map
    (fun header =>
      "-fmodule-file=" ++ (pathJoin header_units_dir (strReplace header "/" "-") ++ ".pcm"))

/-- The filesystem as the scheduler sees it: `os.path.exists` and
`os.path.getmtime`.  (`getmtime` is total here; the scheduler only
compares it on paths it first existence-checks, plus source paths,
which exist in every run being modelled.) -/
structure FS where
  pathExists : String → Bool
  mtime : String → Int

/-- `Baker.is_later` (baker.py:192-193). -/
def is_later (fs : FS) (path path2 : String) : Bool :=
  fs.mtime path > fs.mtime path2

/-- The recompilation test of `compile_all` (baker.py:108-117) for one
node, given the current `triggered_recompile` flag. -/
def needsCompile (source_dir object_dir : String) (fs : FS) (triggered_recompile : Bool)
    (nd : Node) : Bool :=
  let raw_source := nd.data.filename
  let source := pathJoin source_dir raw_source
  let target := pathJoin object_dir (removesuffixes [".cpp", ".cppm"] raw_source ++ ".o")
  let is_module := nd.data.type = Ty.module ∨ nd.data.type = Ty.module_partition
  let bmi_target := removeSuffix target ".o" ++ ".pcm"
  triggered_recompile
    || (!fs.pathExists target || is_later fs source target)
    || (is_module && (!fs.pathExists bmi_target || is_later fs source bmi_target))

/-- `siblings_left.remove(node)`: delete the first occurrence of this
node object; `none` is Python's `ValueError`. -/
def removeNode (n : Nat) : List Child → Option (List Child)
  | [] => none
  | c :: t =>
    if c = .node n then some t
    else (removeNode n t).map (c :: ·)

/-- `node.parent.children.copy() if node.parent is not None else None`
(baker.py:105 and 141). -/
def siblingsOf (st : Store) (n : Nat) : Option (List Child) :=
  match (getN st n).parent with
  | some p => some ((getN st p).children)
  | none => none

/-- The `while True` loop of `compile_all` (baker.py:107-141).  The
store is read-only here; the loop state is the two flags, the compile
counter, the visit log (ghost: node id and whether it was compiled, in
visit order), the current node and the remaining-siblings list. -/
def compile_loop (source_dir object_dir : String) (fs : FS) (st : Store) (root : Nat) :
    Nat → Bool → Bool → Nat → List (Nat × Bool) → Nat → Option (List Child) →
    Except BErr (Nat × List (Nat × Bool))
  | 0, _, _, _, _, _, _ => .error .fuel
  | fuel + 1, triggered_recompile, triggered_recompile_next, compiles, visits, n,
      siblings_left =>
    let nd := getN st n
    let need := needsCompile source_dir object_dir fs triggered_recompile nd
    let compiles := if need then compiles + 1 else compiles
    let triggered_recompile_next := if need then true else triggered_recompile_next
    let visits := visits ++ [(n, need)]
    if n = root then .ok (compiles, visits)
    else
      match siblings_left with
      | none => .error .pyError
      | some sl =>
        match removeNode n sl with
        | none => .error .pyError
        | some sl' =>
          if h : sl'.length > 0 then
            match sl'.head (by intro hn; rw [hn] at h; simp at h) with
            | .ident _ => .error .pyError
            | .node m =>
              compile_loop source_dir object_dir fs st root fuel
                triggered_recompile triggered_recompile_next compiles visits m (some sl')
          else
            let triggered_recompile :=
              if triggered_recompile_next then true else triggered_recompile
            match nd.parent with
            | none => .error .pyError
            | some p =>
              compile_loop source_dir object_dir fs st root fuel
                triggered_recompile triggered_recompile_next compiles visits p
                (siblingsOf st p)

/-- `compile_all` (baker.py:99-141): start at the deepest node with its
sibling list, `triggered_recompile` seeded by the full-rebuild flag. -/
def compile_all (source_dir object_dir : String) (fs : FS) (rebuild : Bool) (fuel : Nat)
    (st : Store) (root last_node : Nat) : Except BErr (Nat × List (Nat × Bool)) :=
  compile_loop source_dir object_dir fs st root fuel rebuild false 0 [] last_node
    (siblingsOf st last_node)

/-- Everything `make_targets` runs for one target up to and including
dependency resolution: `gen_classes`, the synthetic root edges, and
`build_dependency_tree`. -/
structure ResolvedTree where
  classes : Classes
  root : Nat
  rst : RSt
deriving DecidableEq, Repr

def resolveTarget (fuel : Nat) (sources : List NodeData) : Except BErr ResolvedTree :=
  match gen_classes sources with
  | .error e => .error e
  | .ok g =>
    let st := attach_plain_sources g.root g.store g.classes.plain
    let st := attach_module_impls g.root st g.classes.module_impl
    match build_dependency_tree g.classes fuel st g.root with
    | .error e => .error e
    | .ok rst => .ok { classes := g.classes, root := g.root, rst := rst }

/-- Resolution followed by `build_compile_tree`: the reduced tree the
scheduler runs on. -/
structure ReducedTree where
  classes : Classes
  root : Nat
  last_node : Nat
  store : Store
deriving DecidableEq, Repr

def reduceTarget (fuel : Nat) (sources : List NodeData) : Except BErr ReducedTree :=
  match resolveTarget fuel sources with
  | .error e => .error e
  | .ok r =>
    match build_compile_tree r.classes fuel r.rst.store r.root with
    | .error e => .error e
    | .ok st =>
      .ok { classes := r.classes, root := r.root, last_node := r.rst.last_node, store := st }

/-- Resolution, reduction and scheduling for one target: what a
non-`show`, non-`deptree` run executes before linking. -/
def scheduleTarget (source_dir object_dir : String) (fs : FS) (rebuild : Bool) (fuel : Nat)
    (sources : List NodeData) : Except BErr (Nat × List (Nat × Bool)) :=
  match reduceTarget fuel sources with
  | .error e => .error e
  | .ok r => compile_all source_dir object_dir fs rebuild fuel r.store r.root r.last_node

/-- JSON values as `json.load` yields them to Python: strings, numbers,
booleans, null, arrays, objects.  (Integer/float distinction is
irrelevant here: no default value is numeric, so the `type(value) !=
type(value_def)` comparison never needs it.) -/
inductive JVal
  | str : String → JVal
  | num : Int → JVal
  | bool : Bool → JVal
  | null : JVal
  | arr : List JVal → JVal
  | obj : List (String × JVal) → JVal

/-- Python type tag of a JSON value, for `type(value) != type(value_def)`. -/
def jtag : JVal → Nat
  | .str _ => 0
  | .num _ => 1
  | .bool _ => 2
  | .null => 3
  | .arr _ => 4
  | .obj _ => 5

/-- Python `subkey in value` for a JSON value: key membership for
objects, substring for strings, equality membership for arrays,
`TypeError` (`none`) otherwise. -/
def pyIn (s : String) : JVal → Option Bool
  | .obj fields => some (lookupS s fields).isSome
  | .str t => some (containsL s.toList t.toList)
  | .arr xs =>
    some (xs.any (fun x => match x with | .str t => t = s | _ => false))
  | _ => none

/-- Python `value[subkey]` for a JSON value: object lookup, `TypeError`
(`none`) otherwise. -/
def pyGet (s : String) : JVal → Option JVal
  | .obj fields => lookupS s fields
  | _ => none

/-- `Baker.options_default` (baker.py:32-47), each top-level value an
object. -/
def options_default : List (String × List (String × JVal)) :=
  [ ("dirs",
      [ ("source", .str "src"), ("build", .str "build"), ("object", .str "object"),
        ("header_units", .str "header_units") ]),
    ("flags",
      [ ("debug", .arr [.str "-g", .str "-DDEBUG"]),
        ("release", .arr [.str "-O3", .str "-DNDEBUG"]),
        ("base", .arr [.str "-std=c++23", .str "-Wno-experimental-header-units"]) ]),
    ("options", [ ("cxx", .str "clang++") ]) ]

/-- Configuration errors: the deliberate `raise` sites of
`load_bakerfile` plus the Python `TypeError` a non-object recognized
value can produce at `subkey in options[key]` / `options[key][subkey]`. -/
inductive CfgErr
  | missingTargets
  | wrongType (key subkey : String)
  | pyTypeError (key subkey : String)
deriving DecidableEq, Repr

/-- One recognized subkey of `load_bakerfile` (baker.py:372-380):
present with the right type → taken; present with the wrong type →
fatal; absent → default. -/
def loadSubkey (key : String) (v : JVal) (acc : List (String × JVal))
    (sub : String × JVal) : Except CfgErr (List (String × JVal)) :=
  match pyIn sub.1 v with
  | none => .error (.pyTypeError key sub.1)
  | some true =>
    match pyGet sub.1 v with
    | none => .error (.pyTypeError key sub.1)
    | some value =>
      if jtag value ≠ jtag sub.2 then .error (.wrongType key sub.1)
      else .ok (acc ++ [(sub.1, value)])
  | some false => .ok (acc ++ [(sub.1, sub.2)])

/-- One recognized key of `load_bakerfile` (baker.py:369-382). -/
def loadKey (options : List (String × JVal)) (acc : List (String × JVal))
    (keyDef : String × List (String × JVal)) : Except CfgErr (List (String × JVal)) :=
  match lookupS keyDef.1 options with
  | none => .ok (acc ++ [(keyDef.1, .obj keyDef.2)])
  | some v =>
    match keyDef.2.foldlM (loadSubkey keyDef.1 v) [] with
    | .error e => .error e
    | .ok sub => .ok (acc ++ [(keyDef.1, .obj sub)])

/-- `load_bakerfile` (baker.py:358-386) given the parsed JSON object:
require `targets`, fold the recognized keys against their defaults,
then carry every other top-level key through unmodified. -/
def load_bakerfile (options : List (String × JVal)) : Except CfgErr (List (String × JVal)) :=
  if (lookupS "targets" options).isNone then .error .missingTargets
  else
    match options_default.foldlM (loadKey options) [] with
    | .error e => .error e
    | .ok opts =>
      .ok (opts ++ options.filter (fun kv => (lookupS kv.1 opts).isNone))

/-- The resolved node references of a children list. -/
def childNodes : List Child → List Nat
  | [] => []
  | .ident _ :: t => childNodes t
  | .node i :: t => i :: childNodes t

/-- Reachability through resolved child edges of a store. -/
inductive Reach (st : Store) (root : Nat) : Nat → Prop
  | refl : Reach st root root
  | step {p c : Nat} : Reach st root p → Child.node c ∈ (getN st p).children → Reach st root c

/-- Edge coherence at one node: every retained child edge points at a
node whose parent reference is this node (the per-node postcondition of
the stale-edge deletion loop of `clip_redundant`). -/
def Coh (st : Store) (n : Nat) : Prop :=
  ∀ cid, Child.node cid ∈ (getN st n).children → (getN st cid).parent = some n

/-- Length-indexed reachability along resolved child edges, decomposed
at the first edge. -/
inductive Pathn (st : Store) : Nat → Nat → Nat → Prop
  | refl (n : Nat) : Pathn st n n 0
  | step {a c m k : Nat} : Child.node c ∈ (getN st a).children →
      Pathn st c m k → Pathn st a m (k + 1)

/-- Reachability along resolved child edges (first-step form). -/
def ReachT (st : Store) (n m : Nat) : Prop := ∃ k, Pathn st n m k

/-- Edge coherence at every node reachable from `n`. -/
def TreeCoh (st : Store) (n : Nat) : Prop := ∀ m, ReachT st n m → Coh st m

/-- The depths of all reach events of node `c` in a resolution trace. -/
def eventDepths (tr : List (Nat × Nat × Nat)) (c : Nat) : List Nat :=
  (tr.filter (fun e => e.2.2 = c)).map (fun e => e.2.1)

def listMaxO : List Nat → Option Nat
  | [] => none
  | a :: t =>
    match listMaxO t with
    | none => some a
    | some m => some (max a m)

def findF {α : Type} (p : α → Bool) : List α → Option α
  | [] => none
  | a :: t => if p a then some a else findF p t

/-- The traverser of the first reach event of `c` attaining its maximum
event depth (so ties go to the first-discovered parent). -/
def firstMaxParent (tr : List (Nat × Nat × Nat)) (c : Nat) : Option Nat :=
  match listMaxO (eventDepths tr c) with
  | none => none
  | some m => (findF (fun e => decide (e.2.2 = c) && decide (e.2.1 = m)) tr).map (fun e => e.1)

/-- A node counts as reached during resolution if it is the root or the
target of some reach event. -/
def Visited (root : Nat) (tr : List (Nat × Nat × Nat)) (x : Nat) : Prop :=
  x = root ∨ ∃ e ∈ tr, e.2.2 = x

/-- Height certificate read off the final `node_depth` table: `0` for
never-reached nodes (in particular the root), recorded depth plus one
otherwise. -/
def depthMeasure (node_depth : List (Nat × Nat)) (x : Nat) : Nat :=
  match lookupN x node_depth with
  | none => 0
  | some d => d + 1

def mkData (t : Ty) (m f : String) (post : List String) : NodeData :=
  ⟨t, m, f, post, []⟩

/-- A three-node store in which the root imports interfaces `A` and
`C` while `A` also imports `C`: node `C` is reached once at depth 1
(from `A`, visited first) and once at depth 0 (from the root), so the
deeper reach must own it. -/
def diamondStore : Store :=
  [ { parent := none, children := [.ident "A", .ident "C"],
      data := mkData .plain "" "app/main.cpp" ["A", "C"] },
    { parent := none, children := [.ident "C"],
      data := mkData .module "A" "app/a.cppm" ["C"] },
    { parent := none, children := [],
      data := mkData .module "C" "app/c.cppm" [] } ]

/-- The classification matching `diamondStore`. -/
def diamondClasses : Classes := ⟨[0], [("A", 1), ("C", 2)], [], []⟩

/-- The store `build_dependency_tree` produces from `diamondStore`:
children resolved, `C` owned by the deeper traverser `A`. -/
def diamondFilled : Store :=
  [ { parent := none, children := [.node 1, .node 2],
      data := mkData .plain "" "app/main.cpp" ["A", "C"] },
    { parent := some 0, children := [.node 2],
      data := mkData .module "A" "app/a.cppm" ["C"] },
    { parent := some 1, children := [],
      data := mkData .module "C" "app/c.cppm" [] } ]

/-- `clip_redundant` on `diamondFilled`: the root's stale edge to `C`
(whose parent is `A`) is deleted, the rest is untouched. -/
def diamondClipped : Store :=
  [ { parent := none, children := [.node 1],
      data := mkData .plain "" "app/main.cpp" ["A", "C"] },
    { parent := some 0, children := [.node 2],
      data := mkData .module "A" "app/a.cppm" ["C"] },
    { parent := some 1, children := [],
      data := mkData .module "C" "app/c.cppm" [] } ]

/-- A five-source target whose reduced tree branches twice: the root
imports interfaces `A` and `B`; `A` imports `C`, `B` imports `D`.  The
reduced tree is `main → {A → C, B → D}` and the deepest-first cursor
starts at `C`, so the scheduler's sibling walk never enters `D`'s
position inside `B`'s subtree. -/
def twoBranchSources : List NodeData :=
  [ mkData .plain "" "app/main.cpp" ["A", "B"],
    mkData .module "A" "app/a.cppm" ["C"],
    mkData .module "B" "app/b.cppm" ["D"],
    mkData .module "C" "app/c.cppm" [],
    mkData .module "D" "app/d.cppm" [] ]

/-- A filesystem with no artifacts at all: the first-ever build. -/
def noArtifactFS : FS := ⟨fun _ => false, fun _ => 0⟩

/-- A filesystem in which every artifact exists with timestamp 5 and
every source has timestamp 0, except that `app/d.cppm`'s source was
touched to timestamp 10 — only node `D` is out of date by the
scheduler's own test. -/
def touchedLeafFS : FS :=
  ⟨fun _ => true,
   fun p =>
     if p = "src/app/d.cppm" then 10
     else if strEndsWith p ".cpp" ∨ strEndsWith p ".cppm" then 0
     else 5⟩

/-- A target with one module interface `M` and a partition `M:p` that
itself imports partition `M:q`: merging folds `M:p`'s dependency list
(`["M:q"]`) into `M`'s. -/
def partitionSources : List NodeData :=
  [ mkData .plain "" "app/main.cpp" ["M"],
    mkData .module "M" "app/m.cppm" ["M:p"],
    mkData .module_partition "M:p" "app/mp.cppm" ["M:q"],
    mkData .module_partition "M:q" "app/mq.cppm" [] ]

/-- A target whose second source (interface `A`) is classified but
never imported: resolution never reaches it, so it appears nowhere in
the reduced tree. -/
def unreferencedSources : List NodeData :=
  [ mkData .plain "" "app/main.cpp" [],
    mkData .module "A" "app/a.cppm" [] ]

/-- A target whose root lists the same interface twice: the resolved
tree holds two edges to the same node. -/
def dupEdgeSources : List NodeData :=
  [ mkData .plain "" "app/main.cpp" ["A", "A"],
    mkData .module "A" "app/a.cppm" [] ]

/-- The reduced tree of `unreferencedSources`: the classified interface
`A` (node 1) hangs off nothing. -/
def noRefReduced : ReducedTree :=
  { classes := ⟨[0], [("A", 1)], [], []⟩, root := 0, last_node := 0,
    store :=
      [ { parent := none, children := [], data := mkData .plain "" "app/main.cpp" [] },
        { parent := none, children := [], data := mkData .module "A" "app/a.cppm" [] } ] }

/-- The reduced tree of `dupEdgeSources`: both duplicate edges to node
1 survive the clip pass. -/
def dupEdgeReduced : ReducedTree :=
  { classes := ⟨[0], [("A", 1)], [], []⟩, root := 0, last_node := 1,
    store :=
      [ { parent := none, children := [.node 1, .node 1],
          data := mkData .plain "" "app/main.cpp" ["A", "A"] },
        { parent := some 0, children := [], data := mkData .module "A" "app/a.cppm" [] } ] }

/-- Everything the partition-folding pass is framed against: the two
stores have the same length and agree on every node's parent,
children, kind, module identity, source path and header units — only
the raw dependency lists may differ. -/
def sameShape (st st' : Store) : Prop :=
  st'.length = st.length ∧
  ∀ i, (getN st' i).parent = (getN st i).parent ∧
    (getN st' i).children = (getN st i).children ∧
    (getN st' i).data.type = (getN st i).data.type ∧
    (getN st' i).data.module = (getN st i).data.module ∧
    (getN st' i).data.filename = (getN st i).data.filename ∧
    (getN st' i).data.header_units = (getN st i).data.header_units

/-- Running invariant of resolution: the `node_depth` entry of every
node is the maximum depth over its reach events so far, and the parent
reference of every (allocated) node is the traverser of the first
maximum-depth reach event, or still its original value if the node was
never reached. -/
def fillInv (st0 : Store) (st : RSt) : Prop :=
  ∀ c, lookupN c st.node_depth = listMaxO (eventDepths st.trace c) ∧
    (c < st.store.length →
      match firstMaxParent st.trace c with
      | some p => (getN st.store c).parent = some p
      | none => (getN st.store c).parent = (getN st0 c).parent)

/-! ### Basic store and association-list lemmas -/

theorem getN_setN (st : Store) (i : Nat) (v : Node) (j : Nat) :
    getN (setN st i v) j = if j = i ∧ i < st.length then v else getN st j := by
  induction st generalizing i j with
  | nil => simp [setN, getN]
  | cons a t ih =>
    match i, j with
    | 0, 0 => simp [setN, getN]
    | 0, j + 1 => simp [setN, getN, List.getD]
    | i + 1, 0 => simp [setN, getN, List.getD]
    | i + 1, j + 1 =>
      simp only [setN, List.set, getN, List.getD_cons_succ, List.length_cons]
      have := ih i j
      simp only [setN, getN] at this
      rw [this]
      by_cases hj : j = i
      · subst hj; simp
      · simp [hj]

theorem setN_getN (st : Store) (i : Nat) : setN st i (getN st i) = st := by
  induction st generalizing i with
  | nil => simp [setN]
  | cons a t ih =>
    match i with
    | 0 => simp [setN, getN, List.getD]
    | i + 1 =>
      simp only [setN, List.set, getN, List.getD_cons_succ]
      have := ih i
      simp only [setN, getN] at this
      rw [this]

theorem lookupS_mem {α : Type} {k : String} {v : α} :
    ∀ {l : List (String × α)}, lookupS k l = some v → (k, v) ∈ l := by
  intro l
  induction l with
  | nil => intro h; simp [lookupS] at h
  | cons a t ih =>
    obtain ⟨k', v'⟩ := a
    intro h
    rw [lookupS] at h
    by_cases hk : k' = k
    · simp only [hk, if_pos rfl] at h
      cases h
      subst hk
      exact List.mem_cons_self _ _
    · rw [if_neg hk] at h
      exact List.mem_cons_of_mem _ (ih h)

/-! ### Claim C1 -/

/-- Claim C1 (refuting evidence for the stated property, supporting a
code-bug verdict): on the five-source target `twoBranchSources`, whose
reduced tree is `main → {A → C, B → D}`, a full-rebuild run compiles
exactly the nodes `C`(3), `A`(1), `B`(2), `main`(0) — node `D`(4) is a
Node of the reduced tree (it is the retained child of `B` and its
object is collected for linking), yet the scheduling pass never visits
it, because the cursor walk of `compile_all` moves only across
remaining siblings and up to parents and never descends into a sibling
subtree. -/
theorem c1_full_rebuild_misses_a_tree_node :
    scheduleTarget "src" "build/debug/object" noArtifactFS true 64 twoBranchSources =
      .ok (4, [(3, true), (1, true), (2, true), (0, true)]) ∧
    (reduceTarget 64 twoBranchSources).map (fun r => (getN r.store 2).children) =
      .ok [.node 4] ∧
    (reduceTarget 64 twoBranchSources).map
        (fun r => collect_objects "build/debug/object" 64 r.store r.root []) =
      .ok (.ok
        [ "build/debug/object/app/main.o", "build/debug/object/app/a.o",
          "build/debug/object/app/c.o", "build/debug/object/app/b.o",
          "build/debug/object/app/d.o" ]) := by
  refine ⟨by decide, by decide, by decide⟩

/-! ### Claim C2 -/

/-- Claim C2 (refuting evidence for the stated property, supporting a
code-bug verdict): on `twoBranchSources` with every artifact present
and fresh except the touched leaf-module source `app/d.cppm`
(`touchedLeafFS`), the scheduler's own per-node staleness test marks
node `D`(4) as needing compilation, yet the run compiles nothing at
all — `D` is never visited (it lies inside the sibling subtree of
`B`), so neither `D` nor its ancestors `B` and `main` are rebuilt. -/
theorem c2_touched_leaf_never_recompiled :
    scheduleTarget "src" "build/debug/object" touchedLeafFS false 64 twoBranchSources =
      .ok (0, [(3, false), (1, false), (2, false), (0, false)]) ∧
    (reduceTarget 64 twoBranchSources).map
        (fun r => needsCompile "src" "build/debug/object" touchedLeafFS false (getN r.store 4)) =
      .ok true ∧
    (reduceTarget 64 twoBranchSources).map (fun r => (getN r.store 4).parent) =
      .ok (some 2) := by
  refine ⟨by decide, by decide, by decide⟩

/-! ### Claim C3 -/

/-- Claim C3 counterexample: on `partitionSources` the interface `M`'s
raw dependency list is `["M:p", "M:q"]` after the first
partition-folding pass (run by `build_compile_tree` inside
`reduceTarget`), and running `fix_module_partition_deps` a second time
appends the partition's list again, yielding `["M:p", "M:q", "M:q"]` —
the pass is not idempotent. -/
theorem c3_merge_partitions_not_idempotent :
    (reduceTarget 64 partitionSources).map (fun r => (getN r.store 1).data.post) =
      .ok ["M:p", "M:q"] ∧
    ((reduceTarget 64 partitionSources).bind
        (fun r => fix_module_partition_deps r.classes 64 r.store r.root)).map
        (fun st => (getN st 1).data.post) =
      .ok ["M:p", "M:q", "M:q"] ∧
    (["M:p", "M:q"] : List String) ≠ ["M:p", "M:q", "M:q"] := by
  refine ⟨by decide, by decide, by decide⟩

/-! ### Claim C7 -/

/-- `triggered_recompile` short-circuits the whole staleness test. -/
theorem needsCompile_triggered (sd od : String) (fs : FS) (nd : Node) :
    needsCompile sd od fs true nd = true := by
  simp [needsCompile]

/-- Claim C7: within one scheduling run, from any loop state in which
`triggered_recompile` is already set — by a full-rebuild request
seeding it, or by an ascent past a level where some node compiled —
the flag is never cleared (the recursion below only ever passes `true`
on), and every node visited for the rest of the run is compiled: the
entire remainder of the visit log carries `true`. -/
theorem c7_triggered_recompile_persists (sd od : String) (fs : FS) (st : Store) (root : Nat) :
    ∀ (fuel : Nat) (tn : Bool) (compiles : Nat) (visits : List (Nat × Bool)) (n : Nat)
      (sibs : Option (List Child)) (out : Nat × List (Nat × Bool)),
      compile_loop sd od fs st root fuel true tn compiles visits n sibs = .ok out →
      ∃ rest, out.2 = visits ++ rest ∧ ∀ x ∈ rest, x.2 = true := by
  intro fuel
  induction fuel with
  | zero =>
    intro tn compiles visits n sibs out h
    simp [compile_loop] at h
  | succ fuel ih =>
    intro tn compiles visits n sibs out h
    simp only [compile_loop, needsCompile_triggered, if_pos, ite_self] at h
    by_cases hroot : n = root
    · rw [if_pos hroot] at h
      cases h
      exact ⟨[(n, true)], rfl, by simp⟩
    · rw [if_neg hroot] at h
      cases sibs with
      | none => simp at h
      | some sl =>
        simp only [] at h
        cases hrm : removeNode n sl with
        | none => rw [hrm] at h; simp at h
        | some sl' =>
          rw [hrm] at h
          cases sl' with
          | nil =>
            simp only [List.length_nil, gt_iff_lt, Nat.lt_irrefl, dite_false] at h
            cases hp : (getN st n).parent with
            | none => rw [hp] at h; simp at h
            | some p =>
              rw [hp] at h
              dsimp only at h
              obtain ⟨rest, hrest, hall⟩ := ih true _ _ p (siblingsOf st p) out h
              exact ⟨(n, true) :: rest, by simpa using hrest, by
                intro x hx
                rcases List.mem_cons.mp hx with h1 | h2
                · rw [h1]
                · exact hall x h2⟩
          | cons c tl =>
            simp only [List.length_cons, gt_iff_lt, Nat.succ_pos, dite_true, List.head_cons] at h
            cases c with
            | ident s => simp at h
            | node m =>
              dsimp only at h
              obtain ⟨rest, hrest, hall⟩ := ih true _ _ m (some (.node m :: tl)) out h
              exact ⟨(n, true) :: rest, by simpa using hrest, by
                intro x hx
                rcases List.mem_cons.mp hx with h1 | h2
                · rw [h1]
                · exact hall x h2⟩

/-- Witness for C7 on a one-node store. -/
theorem c7_witness :
    ∃ rest, ((1 : Nat), [((0 : Nat), true)]).2 = ([] : List (Nat × Bool)) ++ rest ∧
      ∀ x ∈ rest, x.2 = true :=
  c7_triggered_recompile_persists "src" "obj" noArtifactFS [{ data := defaultData }] 0
    1 false 0 [] 0 none (1, [(0, true)]) (by decide)

/-! ### Claim C8 -/

/-- Claim C8: during dependency resolution, a `"module:partition"`
identifier that matches a known partition node (and no interface)
resolves to that node, and resolution fails with the
foreign-partition-import error exactly when the importing unit's own
module name (`module.split(':')[0]`) differs from the partition's
module name. -/
theorem c8_partition_import_resolution (cls : Classes) (st : Store) (module child : String)
    (i : Nat)
    (hmod : lookupS child cls.module = none)
    (hpart : lookupS child cls.module_partition = some i)
    (hkey : (getN st i).data.module = child) :
    (resolveIdent cls module child = .error (.foreignPartition module child) ↔
      headSplit module ≠ headSplit ((getN st i).data.module)) ∧
    (resolveIdent cls module child = .ok i ↔
      headSplit module = headSplit ((getN st i).data.module)) := by
  rw [hkey]
  by_cases hd : headSplit module = headSplit child
  · simp [resolveIdent, hmod, hpart, hd]
  · simp [resolveIdent, hmod, hpart, hd]

/-- Witness for C8: importing `B`'s partition `B:x` from a unit of
module `A` is the foreign-import error; importing it from `B`'s own
implementation unit resolves to the partition node. -/
theorem c8_witness :
    resolveIdent ⟨[], [], [("B:x", 7)], []⟩ "A" "B:x" = .error (.foreignPartition "A" "B:x") ∧
    resolveIdent ⟨[], [], [("B:x", 7)], []⟩ "B" "B:x" = .ok 7 := by
  constructor
  · exact (c8_partition_import_resolution ⟨[], [], [("B:x", 7)], []⟩
      (List.replicate 7 ({ data := defaultData } : Node) ++
        [{ data := mkData .module_partition "B:x" "app/bx.cppm" [] }])
      "A" "B:x" 7 (by decide) (by decide) (by decide)).1.mpr (by decide)
  · exact (c8_partition_import_resolution ⟨[], [], [("B:x", 7)], []⟩
      (List.replicate 7 ({ data := defaultData } : Node) ++
        [{ data := mkData .module_partition "B:x" "app/bx.cppm" [] }])
      "B" "B:x" 7 (by decide) (by decide) (by decide)).2.mpr (by decide)

/-! ### Claim C9 -/

theorem getN_append (st : Store) (xs : List Node) (i : Nat) (h : i < st.length) :
    getN (st ++ xs) i = getN st i := by
  simp [getN, List.getD_eq_getElem?_getD, List.getElem?_append, h]

/-- A first source with a permitted suffix and directory shape that is
not a Plain `.cpp` unit trips the root-eligibility `raise`. -/
theorem gen_step_zero_fail {g : GenSt} {d : NodeData}
    (hsuf : strEndsWith d.filename ".cpp" = true ∨ strEndsWith d.filename ".cppm" = true)
    (hdir : ¬(strContainsChar (posixDirname d.filename) '/' = true ∨ posixDirname d.filename = ""))
    (hbad : d.type ≠ Ty.plain ∨ ¬strEndsWith d.filename ".cpp" = true) :
    gen_step 0 g d = .error .rootNotPlain := by
  unfold gen_step
  rw [if_neg (not_not_intro hsuf), if_neg hdir]
  simp only [if_pos rfl]
  rw [if_pos hbad]
  simp only [if_true]

/-- A successful `gen_step` at index 0 pins down the root node. -/
theorem gen_step_zero_ok {g : GenSt} {d : NodeData} {g' : GenSt}
    (h : gen_step 0 g d = .ok g') :
    d.type = Ty.plain ∧ strEndsWith d.filename ".cpp" = true ∧
      g'.root = g.store.length ∧ g'.store = g.store ++ [⟨none, d.post.map Child.ident, d⟩] := by
  unfold gen_step at h
  by_cases h1 : ¬(strEndsWith d.filename ".cpp" = true ∨ strEndsWith d.filename ".cppm" = true)
  · rw [if_pos h1] at h; exact absurd h (by simp)
  · rw [if_neg h1] at h
    by_cases h2 : strContainsChar (posixDirname d.filename) '/' = true ∨ posixDirname d.filename = ""
    · rw [if_pos h2] at h; exact absurd h (by simp)
    · rw [if_neg h2] at h
      simp only [if_pos rfl] at h
      by_cases h4 : d.type ≠ Ty.plain ∨ ¬strEndsWith d.filename ".cpp" = true
      · rw [if_pos h4] at h; exact absurd h (by simp)
      · rw [if_neg h4] at h
        push_neg at h4
        obtain ⟨ht, hc⟩ := h4
        rw [ht] at h
        simp only [] at h
        cases h
        exact ⟨ht, hc, rfl, rfl⟩

/-- A successful `gen_step` at a nonzero index leaves the root alone
and extends the store by one node. -/
theorem gen_step_succ {index : Nat} {g : GenSt} {d : NodeData} {g' : GenSt}
    (hidx : index ≠ 0) (h : gen_step index g d = .ok g') :
    g'.root = g.root ∧ ∃ nd, g'.store = g.store ++ [nd] := by
  unfold gen_step at h
  by_cases h1 : ¬(strEndsWith d.filename ".cpp" = true ∨ strEndsWith d.filename ".cppm" = true)
  · rw [if_pos h1] at h; exact absurd h (by simp)
  · rw [if_neg h1] at h
    by_cases h2 : strContainsChar (posixDirname d.filename) '/' = true ∨ posixDirname d.filename = ""
    · rw [if_pos h2] at h; exact absurd h (by simp)
    · rw [if_neg h2] at h
      rw [if_neg hidx] at h
      cases htd : d.type <;> rw [htd] at h <;> simp only [] at h <;> cases h <;>
        exact ⟨rfl, _, rfl⟩

/-- `gen_classes_go` from a nonzero index never reassigns the root and
only appends to the store. -/
theorem gen_go_preserves : ∀ (rest : List NodeData) (index : Nat) (g g' : GenSt),
    index ≠ 0 → gen_classes_go index g rest = .ok g' →
    g'.root = g.root ∧ g.store.length ≤ g'.store.length ∧
      ∀ i, i < g.store.length → getN g'.store i = getN g.store i := by
  intro rest
  induction rest with
  | nil =>
    intro index g g' hidx h
    simp only [gen_classes_go] at h
    cases h
    exact ⟨rfl, le_refl _, fun i _ => rfl⟩
  | cons d t ih =>
    intro index g g' hidx h
    simp only [gen_classes_go] at h
    cases hs : gen_step index g d with
    | error e => rw [hs] at h; simp at h
    | ok g1 =>
      rw [hs] at h
      obtain ⟨hr, nd, hst⟩ := gen_step_succ hidx hs
      obtain ⟨hr', hlen, hpre⟩ := ih (index + 1) g1 g' (by omega) h
      have hlen1 : g.store.length + 1 = g1.store.length := by rw [hst]; simp
      refine ⟨hr'.trans hr, by omega, ?_⟩
      intro i hi
      rw [hpre i (by omega), hst, getN_append _ _ _ hi]

/-- Claim C9 counterexample: a first source that is not even a
permitted `.cpp`/`.cppm` path fails with the generic source-suffix
error of baker.py:321-322, not with the root-source error of
baker.py:349-351 — so, as stated, "fails with a fatal root-source
error" does not hold for every first element that is not Plain with
the primary suffix. -/
theorem c9_wrong_error_for_bad_suffix :
    gen_classes [mkData .plain "" "app/x.txt" []] = .error .badSuffix ∧
    (Except.error BErr.badSuffix : Except BErr GenSt) ≠ .error .rootNotPlain := by
  refine ⟨by decide, by decide⟩

/-- Claim C9 (amended): for a first source that passes the universal
per-source checks (permitted suffix, exactly one directory level) but
does not classify as Plain with the primary `.cpp` suffix,
classification fails with the fatal root-source error — before any
graph resolution or scheduling, whatever the remaining sources are;
otherwise, on success, that first source is the node the target's
`root_node` points at. -/
theorem c9_first_source_root (d : NodeData) (rest : List NodeData)
    (hsuf : strEndsWith d.filename ".cpp" = true ∨ strEndsWith d.filename ".cppm" = true)
    (hdir : ¬(strContainsChar (posixDirname d.filename) '/' = true ∨ posixDirname d.filename = "")) :
    ((d.type ≠ Ty.plain ∨ ¬strEndsWith d.filename ".cpp" = true) →
      gen_classes (d :: rest) = .error .rootNotPlain ∧
      (∀ fuel, resolveTarget fuel (d :: rest) = .error .rootNotPlain) ∧
      (∀ sd od fs rebuild fuel, scheduleTarget sd od fs rebuild fuel (d :: rest) =
        .error .rootNotPlain)) ∧
    (∀ g, gen_classes (d :: rest) = .ok g →
      g.root = 0 ∧ getN g.store 0 = ⟨none, d.post.map Child.ident, d⟩ ∧
        d.type = Ty.plain ∧ strEndsWith d.filename ".cpp" = true) := by
  constructor
  · intro hbad
    have herr : gen_classes (d :: rest) = .error .rootNotPlain := by
      unfold gen_classes
      simp only [gen_classes_go]
      rw [gen_step_zero_fail hsuf hdir hbad]
    refine ⟨herr, ?_, ?_⟩
    · intro fuel
      unfold resolveTarget
      rw [herr]
    · intro sd od fs rebuild fuel
      unfold scheduleTarget reduceTarget resolveTarget
      rw [herr]
  · intro g hg
    unfold gen_classes at hg
    simp only [gen_classes_go] at hg
    cases hs : gen_step 0 initGenSt d with
    | error e => rw [hs] at hg; simp at hg
    | ok g1 =>
      rw [hs] at hg
      obtain ⟨ht, hc, hroot1, hstore1⟩ := gen_step_zero_ok hs
      obtain ⟨hr, hlen, hpre⟩ := gen_go_preserves rest 1 g1 g (by omega) hg
      have hlen1 : g1.store.length = 1 := by rw [hstore1]; rfl
      refine ⟨?_, ?_, ht, hc⟩
      · rw [hr, hroot1]; rfl
      · rw [hpre 0 (by omega), hstore1]; rfl

/-- Witness for C9: a first source classified as a module interface
(`.cppm`, one directory level) hits the root-source error; and on the
successful target `unreferencedSources` the root is node 0 holding the
first source. -/
theorem c9_witness :
    gen_classes [mkData .module "A" "app/a.cppm" []] = .error .rootNotPlain ∧
    (∀ g, gen_classes unreferencedSources = .ok g →
      g.root = 0 ∧ getN g.store 0 =
        ⟨none, ([] : List String).map Child.ident, mkData .plain "" "app/main.cpp" []⟩ ∧
        (mkData .plain "" "app/main.cpp" []).type = Ty.plain ∧
        strEndsWith "app/main.cpp" ".cpp" = true) := by
  constructor
  · exact ((c9_first_source_root (mkData .module "A" "app/a.cppm" []) []
      (by decide) (by decide)).1 (by decide)).1
  · exact (c9_first_source_root (mkData .plain "" "app/main.cpp" [])
      [mkData .module "A" "app/a.cppm" []] (by decide) (by decide)).2

/-! ### Claims C3 (amended part) and C6: the partition-folding frame -/

theorem sameShape_refl (st : Store) : sameShape st st :=
  ⟨rfl, fun _ => ⟨rfl, rfl, rfl, rfl, rfl, rfl⟩⟩

theorem sameShape_trans {a b c : Store} (h1 : sameShape a b) (h2 : sameShape b c) :
    sameShape a c := by
  obtain ⟨hl1, hf1⟩ := h1
  obtain ⟨hl2, hf2⟩ := h2
  refine ⟨hl2.trans hl1, fun i => ?_⟩
  obtain ⟨a1, a2, a3, a4, a5, a6⟩ := hf1 i
  obtain ⟨b1, b2, b3, b4, b5, b6⟩ := hf2 i
  exact ⟨b1.trans a1, b2.trans a2, b3.trans a3, b4.trans a4, b5.trans a5, b6.trans a6⟩

/-- One merge step only ever rewrites the raw dependency list of the
interface node `self.classes` maps the parent's module name to. -/
theorem fixStep_shape {cls : Classes} {st : Store} {n cid : Nat} {st' : Store}
    (hcls : ∀ p ∈ cls.module, (getN st p.2).data.type = Ty.module)
    (h : fixStep cls st n cid = .ok st') :
    sameShape st st' ∧ ∀ i, (getN st i).data.type ≠ Ty.module → getN st' i = getN st i := by
  unfold fixStep at h
  by_cases hc : (getN st n).data.type = Ty.module ∧ (getN st cid).data.type = Ty.module_partition
  · rw [if_pos hc] at h
    cases hn : lookupS ((getN st n).data.module) cls.module with
    | none => rw [hn] at h; simp at h
    | some c_node =>
      rw [hn] at h
      cases hp : lookupS ((getN st cid).data.module) cls.module_partition with
      | none => rw [hp] at h; simp at h
      | some c_partition_node =>
        rw [hp] at h
        cases h
        have htype : (getN st c_node).data.type = Ty.module :=
          hcls _ (lookupS_mem hn)
        constructor
        · refine ⟨by simp [setN], fun i => ?_⟩
          rw [getN_setN]
          by_cases hi : i = c_node ∧ c_node < st.length
          · rw [if_pos hi, hi.1]
            exact ⟨rfl, rfl, rfl, rfl, rfl, rfl⟩
          · rw [if_neg hi]
            exact ⟨rfl, rfl, rfl, rfl, rfl, rfl⟩
        · intro i hi
          rw [getN_setN]
          by_cases hc2 : i = c_node ∧ c_node < st.length
          · exact absurd (hc2.1 ▸ htype) hi
          · rw [if_neg hc2]
  · rw [if_neg hc] at h
    cases h
    exact ⟨sameShape_refl st, fun _ _ => rfl⟩

/-- `sameShape` carries the well-typedness of the interface map along. -/
theorem hcls_transfer {cls : Classes} {st st' : Store} (sh : sameShape st st')
    (hcls : ∀ p ∈ cls.module, (getN st p.2).data.type = Ty.module) :
    ∀ p ∈ cls.module, (getN st' p.2).data.type = Ty.module :=
  fun p hp => ((sh.2 p.2).2.2.1).trans (hcls p hp)

/-- The whole partition-folding pass only ever rewrites raw dependency
lists of interface nodes: parents, children, kinds, module identities,
paths and header units are untouched, and non-interface nodes are
untouched entirely. -/
theorem fix_run_shape (cls : Classes) :
    ∀ (fuel : Nat) (st : Store) (task : FixTask) (st' : Store),
      (∀ p ∈ cls.module, (getN st p.2).data.type = Ty.module) →
      fix_run cls fuel st task = .ok st' →
      sameShape st st' ∧ ∀ i, (getN st i).data.type ≠ Ty.module → getN st' i = getN st i := by
  intro fuel
  induction fuel with
  | zero =>
    intro st task st' _ h
    simp [fix_run] at h
  | succ fuel ih =>
    intro st task st' hcls h
    match task with
    | .node n =>
      exact ih st (.kids n ((getN st n).children)) st' hcls h
    | .kids n [] =>
      cases h
      exact ⟨sameShape_refl st, fun _ _ => rfl⟩
    | .kids n (c :: rest) =>
      match c with
      | .ident s => simp [fix_run] at h
      | .node cid =>
        rw [show fix_run cls (fuel + 1) st (.kids n (.node cid :: rest)) =
          (match fixStep cls st n cid with
           | .error e => .error e
           | .ok st =>
             match fix_run cls fuel st (.node cid) with
             | .error e => .error e
             | .ok st => fix_run cls fuel st (.kids n rest)) from rfl] at h
        cases hfs : fixStep cls st n cid with
        | error e => simp only [hfs] at h; exact absurd h (by simp)
        | ok st1 =>
          simp only [hfs] at h
          obtain ⟨sh1, hm1⟩ := fixStep_shape hcls hfs
          have hcls1 := hcls_transfer sh1 hcls
          cases hfr : fix_run cls fuel st1 (.node cid) with
          | error e => simp only [hfr] at h; exact absurd h (by simp)
          | ok st2 =>
            simp only [hfr] at h
            obtain ⟨sh2, hm2⟩ := ih st1 (.node cid) st2 hcls1 hfr
            have hcls2 := hcls_transfer sh2 hcls1
            obtain ⟨sh3, hm3⟩ := ih st2 (.kids n rest) st' hcls2 h
            refine ⟨sameShape_trans sh1 (sameShape_trans sh2 sh3), ?_⟩
            intro i hi
            have t1 : (getN st1 i).data.type = (getN st i).data.type := (sh1.2 i).2.2.1
            have t2 : (getN st2 i).data.type = (getN st1 i).data.type := (sh2.2 i).2.2.1
            rw [hm3 i (by rw [t2, t1]; exact hi), hm2 i (by rw [t1]; exact hi), hm1 i hi]

/-- A dereference is either a store member or the default node. -/
theorem getN_cases (st : Store) (i : Nat) :
    getN st i ∈ st ∨ getN st i = { data := defaultData } := by
  by_cases hi : i < st.length
  · left
    have : getN st i = st[i] := by
      simp [getN, List.getD_eq_getElem?_getD, List.getElem?_eq_getElem hi]
    rw [this]
    exact List.getElem_mem hi
  · right
    have hle : st.length ≤ i := le_of_not_lt hi
    simp [getN, List.getD_eq_getElem?_getD, List.getElem?_eq_none hle]

/-- Subtree module collection only reads node shapes, so it cannot see
the partition-folding pass. -/
theorem collect_modules_shape (dir : String) {st st' : Store} (sh : sameShape st st') :
    ∀ (fuel : Nat) (task : WalkTask) (acc : List (String × String)),
      collect_modules_run dir fuel st' task acc = collect_modules_run dir fuel st task acc := by
  intro fuel
  induction fuel with
  | zero => intro task acc; rfl
  | succ fuel ih =>
    intro task acc
    match task with
    | .node n =>
      have e1 : (getN st' n).data.type = (getN st n).data.type := (sh.2 n).2.2.1
      have e2 : (getN st' n).data.module = (getN st n).data.module := (sh.2 n).2.2.2.1
      have e3 : (getN st' n).data.filename = (getN st n).data.filename := (sh.2 n).2.2.2.2.1
      have e4 : (getN st' n).children = (getN st n).children := (sh.2 n).2.1
      simp only [collect_modules_run, e1, e2, e3, e4]
      exact ih (.kids (getN st n).children) _
    | .kids [] => rfl
    | .kids (c :: rest) =>
      match c with
      | .ident s => rfl
      | .node cid =>
        simp only [collect_modules_run, ih (.node cid) acc]
        cases h2 : collect_modules_run dir fuel st (.node cid) acc with
        | error e => rfl
        | ok acc2 => exact ih (.kids rest) acc2

/-- Subtree object collection likewise cannot see the pass. -/
theorem collect_objects_shape (dir : String) {st st' : Store} (sh : sameShape st st') :
    ∀ (fuel : Nat) (task : WalkTask) (acc : List String),
      collect_objects_run dir fuel st' task acc = collect_objects_run dir fuel st task acc := by
  intro fuel
  induction fuel with
  | zero => intro task acc; rfl
  | succ fuel ih =>
    intro task acc
    match task with
    | .node n =>
      have e3 : (getN st' n).data.filename = (getN st n).data.filename := (sh.2 n).2.2.2.2.1
      have e4 : (getN st' n).children = (getN st n).children := (sh.2 n).2.1
      simp only [collect_objects_run, e3, e4]
      exact ih (.kids (getN st n).children) _
    | .kids [] => rfl
    | .kids (c :: rest) =>
      match c with
      | .ident s => rfl
      | .node cid =>
        simp only [collect_objects_run, ih (.node cid) acc]
        cases h2 : collect_objects_run dir fuel st (.node cid) acc with
        | error e => rfl
        | ok acc2 => exact ih (.kids rest) acc2

/-- Claim C6: the partition-folding pass changes only the raw
dependency-identifier lists stored in interface nodes' records — every
node keeps its parent, resolved children, kind, module identity, path
and header units, non-interface nodes are untouched entirely, and
therefore the module-interface flag set gathered by subtree walk for
each compilation, the object paths collected for linking, and the
header-unit flags are identical whether or not the pass has run. -/
theorem c6_merge_pass_frame (cls : Classes) (fuel : Nat) (st st' : Store) (n : Nat)
    (hcls : ∀ p ∈ cls.module, (getN st p.2).data.type = Ty.module)
    (h : fix_module_partition_deps cls fuel st n = .ok st') :
    (∀ i, (getN st' i).parent = (getN st i).parent ∧
      (getN st' i).children = (getN st i).children ∧
      (getN st' i).data.type = (getN st i).data.type ∧
      (getN st' i).data.module = (getN st i).data.module ∧
      (getN st' i).data.filename = (getN st i).data.filename ∧
      (getN st' i).data.header_units = (getN st i).data.header_units) ∧
    (∀ i, (getN st i).data.type ≠ Ty.module → getN st' i = getN st i) ∧
    (∀ dir fuel2 m acc, collect_modules_run dir fuel2 st' (.node m) acc =
      collect_modules_run dir fuel2 st (.node m) acc) ∧
    (∀ dir fuel2 m acc, collect_objects_run dir fuel2 st' (.node m) acc =
      collect_objects_run dir fuel2 st (.node m) acc) ∧
    (∀ dir fuel2 m, moduleFileFlags dir fuel2 st' m = moduleFileFlags dir fuel2 st m) ∧
    (∀ hud m, headerUnitFlags hud (getN st' m) = headerUnitFlags hud (getN st m)) := by
  obtain ⟨sh, hm⟩ := fix_run_shape cls fuel st (.node n) st' hcls h
  refine ⟨sh.2, hm, fun dir fuel2 m acc => collect_modules_shape dir sh fuel2 (.node m) acc,
    fun dir fuel2 m acc => collect_objects_shape dir sh fuel2 (.node m) acc, ?_, ?_⟩
  · intro dir fuel2 m
    unfold moduleFileFlags collect_modules
    rw [collect_modules_shape dir sh fuel2 (.node m) []]
  · intro hud m
    unfold headerUnitFlags
    rw [(sh.2 m).2.2.2.2.2]

/-- Witness for C6 on a three-node store `main → M → M:p` whose
interface `M` absorbs the partition's dependency list: children and
non-interface nodes are untouched and the collected object paths
agree. -/
theorem c6_witness :
    (getN
        [⟨none, [.node 1], mkData .plain "" "app/main.cpp" ["M"]⟩,
         ⟨some 0, [.node 2], ⟨Ty.module, "M", "app/m.cppm", ["M:p", "M:q"], []⟩⟩,
         ⟨some 1, [], mkData .module_partition "M:p" "app/mp.cppm" ["M:q"]⟩] 1).children =
      (getN
        [⟨none, [.node 1], mkData .plain "" "app/main.cpp" ["M"]⟩,
         ⟨some 0, [.node 2], mkData .module "M" "app/m.cppm" ["M:p"]⟩,
         ⟨some 1, [], mkData .module_partition "M:p" "app/mp.cppm" ["M:q"]⟩] 1).children ∧
    collect_objects_run "o" 8
        [⟨none, [.node 1], mkData .plain "" "app/main.cpp" ["M"]⟩,
         ⟨some 0, [.node 2], ⟨Ty.module, "M", "app/m.cppm", ["M:p", "M:q"], []⟩⟩,
         ⟨some 1, [], mkData .module_partition "M:p" "app/mp.cppm" ["M:q"]⟩] (.node 0) [] =
      collect_objects_run "o" 8
        [⟨none, [.node 1], mkData .plain "" "app/main.cpp" ["M"]⟩,
         ⟨some 0, [.node 2], mkData .module "M" "app/m.cppm" ["M:p"]⟩,
         ⟨some 1, [], mkData .module_partition "M:p" "app/mp.cppm" ["M:q"]⟩] (.node 0) [] := by
  have H := c6_merge_pass_frame ⟨[0], [("M", 1)], [("M:p", 2)], []⟩ 8
    [⟨none, [.node 1], mkData .plain "" "app/main.cpp" ["M"]⟩,
     ⟨some 0, [.node 2], mkData .module "M" "app/m.cppm" ["M:p"]⟩,
     ⟨some 1, [], mkData .module_partition "M:p" "app/mp.cppm" ["M:q"]⟩]
    [⟨none, [.node 1], mkData .plain "" "app/main.cpp" ["M"]⟩,
     ⟨some 0, [.node 2], ⟨Ty.module, "M", "app/m.cppm", ["M:p", "M:q"], []⟩⟩,
     ⟨some 1, [], mkData .module_partition "M:p" "app/mp.cppm" ["M:q"]⟩]
    0 (by decide) (by decide)
  exact ⟨(H.1 1).2.1, H.2.2.2.1 "o" 8 0 []⟩

/-- One merge step is the identity when the looked-up partition's list
is empty. -/
theorem fixStep_id {cls : Classes} {st : Store} {n cid : Nat} {st' : Store}
    (hw : ∀ p ∈ cls.module_partition, (getN st p.2).data.type = Ty.module_partition)
    (hp : ∀ i, (getN st i).data.type = Ty.module_partition → (getN st i).data.post = [])
    (h : fixStep cls st n cid = .ok st') : st' = st := by
  unfold fixStep at h
  by_cases hc : (getN st n).data.type = Ty.module ∧ (getN st cid).data.type = Ty.module_partition
  · rw [if_pos hc] at h
    cases hn : lookupS ((getN st n).data.module) cls.module with
    | none => rw [hn] at h; exact absurd h (by simp)
    | some c_node =>
      rw [hn] at h
      cases hpp : lookupS ((getN st cid).data.module) cls.module_partition with
      | none => rw [hpp] at h; exact absurd h (by simp)
      | some c_partition_node =>
        rw [hpp] at h
        cases h
        have hpt : (getN st c_partition_node).data.type = Ty.module_partition :=
          hw _ (lookupS_mem hpp)
        have hpe : (getN st c_partition_node).data.post = [] := hp _ hpt
        rw [hpe]
        have hv : ({ getN st c_node with
            data := { (getN st c_node).data with
              post := (getN st c_node).data.post ++ [] } } : Node) = getN st c_node := by
          simp
        rw [hv, setN_getN]
  · rw [if_neg hc] at h
    cases h
    rfl

/-- The whole pass is the identity when every partition's dependency
list is empty. -/
theorem fix_run_id (cls : Classes) (st : Store)
    (hw : ∀ p ∈ cls.module_partition, (getN st p.2).data.type = Ty.module_partition)
    (hp : ∀ i, (getN st i).data.type = Ty.module_partition → (getN st i).data.post = []) :
    ∀ (fuel : Nat) (task : FixTask) (st' : Store),
      fix_run cls fuel st task = .ok st' → st' = st := by
  intro fuel
  induction fuel with
  | zero => intro task st' h; simp [fix_run] at h
  | succ fuel ih =>
    intro task st' h
    match task with
    | .node n => exact ih (.kids n ((getN st n).children)) st' h
    | .kids n [] => cases h; rfl
    | .kids n (c :: rest) =>
      match c with
      | .ident s => simp [fix_run] at h
      | .node cid =>
        rw [show fix_run cls (fuel + 1) st (.kids n (.node cid :: rest)) =
          (match fixStep cls st n cid with
           | .error e => .error e
           | .ok st =>
             match fix_run cls fuel st (.node cid) with
             | .error e => .error e
             | .ok st => fix_run cls fuel st (.kids n rest)) from rfl] at h
        cases hfs : fixStep cls st n cid with
        | error e => simp only [hfs] at h; exact absurd h (by simp)
        | ok st1 =>
          have hst1 : st1 = st := fixStep_id hw hp hfs
          simp only [hfs, hst1] at h
          cases hfr : fix_run cls fuel st (.node cid) with
          | error e => simp only [hfr] at h; exact absurd h (by simp)
          | ok st2 =>
            have hst2 : st2 = st := ih (.node cid) st2 hfr
            simp only [hfr, hst2] at h
            exact ih (.kids n rest) st' h

/-- Claim C3 (amended): the partition-folding pass leaves interface
dependency lists unchanged under reapplication exactly in the case
where every known partition's dependency list is empty — then both the
first and the second application are the identity on the store; in
general (see the counterexample) a second application appends each
partition's list to its owning interface's list again. -/
theorem c3_merge_idempotent_when_partition_posts_empty (cls : Classes)
    (st st' st'' : Store) (fuel fuel' n : Nat)
    (hw : ∀ p ∈ cls.module_partition, (getN st p.2).data.type = Ty.module_partition)
    (hp : ∀ nd ∈ st, nd.data.type = Ty.module_partition → nd.data.post = [])
    (h1 : fix_module_partition_deps cls fuel st n = .ok st')
    (h2 : fix_module_partition_deps cls fuel' st' n = .ok st'') :
    st' = st ∧ st'' = st' := by
  have hp' : ∀ i, (getN st i).data.type = Ty.module_partition → (getN st i).data.post = [] := by
    intro i hi
    rcases getN_cases st i with hmem | hdef
    · exact hp _ hmem hi
    · rw [hdef] at hi
      exact absurd hi (by simp [defaultData])
  have e1 : st' = st := fix_run_id cls st hw hp' fuel (.node n) st' h1
  rw [e1] at h2
  have e2 : st'' = st := fix_run_id cls st hw hp' fuel' (.node n) st'' h2
  exact ⟨e1, e2.trans e1.symm⟩

/-- Witness for C3's amended statement on a store whose partition has
no dependencies: both applications are the identity. -/
theorem c3_witness :
    ([⟨none, [.node 1], mkData .plain "" "app/main.cpp" ["M"]⟩,
      ⟨some 0, [.node 2], mkData .module "M" "app/m.cppm" ["M:p"]⟩,
      ⟨some 1, [], mkData .module_partition "M:p" "app/mp.cppm" []⟩] : Store) =
      [⟨none, [.node 1], mkData .plain "" "app/main.cpp" ["M"]⟩,
       ⟨some 0, [.node 2], mkData .module "M" "app/m.cppm" ["M:p"]⟩,
       ⟨some 1, [], mkData .module_partition "M:p" "app/mp.cppm" []⟩] ∧
    ([⟨none, [.node 1], mkData .plain "" "app/main.cpp" ["M"]⟩,
      ⟨some 0, [.node 2], mkData .module "M" "app/m.cppm" ["M:p"]⟩,
      ⟨some 1, [], mkData .module_partition "M:p" "app/mp.cppm" []⟩] : Store) =
      [⟨none, [.node 1], mkData .plain "" "app/main.cpp" ["M"]⟩,
       ⟨some 0, [.node 2], mkData .module "M" "app/m.cppm" ["M:p"]⟩,
       ⟨some 1, [], mkData .module_partition "M:p" "app/mp.cppm" []⟩] :=
  c3_merge_idempotent_when_partition_posts_empty ⟨[0], [("M", 1)], [("M:p", 2)], []⟩
    _ _ _ 8 8 0 (by decide) (by decide) (by decide) (by decide)

/-! ### Claim C10 -/

theorem foldlM_except_nil {ε α β : Type} (f : β → α → Except ε β) (b : β) :
    List.foldlM f b [] = .ok b := rfl

theorem foldlM_except_cons_ok {ε α β : Type} {f : β → α → Except ε β} {b b' : β} {a : α}
    (t : List α) (h : f b a = .ok b') :
    List.foldlM f b (a :: t) = List.foldlM f b' t := by
  simp [List.foldlM, h, bind, Except.bind]

theorem foldlM_except_cons_err {ε α β : Type} {f : β → α → Except ε β} {b : β} {a : α}
    {e : ε} (t : List α) (h : f b a = .error e) :
    List.foldlM f b (a :: t) = .error e := by
  simp [List.foldlM, h, bind, Except.bind]

/-- If some list element makes the folded step fail regardless of the
accumulator, the whole `foldlM` fails. -/
theorem foldlM_err {ε α β : Type} (f : β → α → Except ε β) {x : α} :
    ∀ (l : List α) (b : β), x ∈ l → (∀ acc, ∃ e, f acc x = .error e) →
      ∃ e, List.foldlM f b l = .error e := by
  intro l
  induction l with
  | nil => intro b hx _; simp at hx
  | cons a t ih =>
    intro b hx hf
    rcases List.mem_cons.mp hx with rfl | hxt
    · obtain ⟨e, he⟩ := hf b
      exact ⟨e, foldlM_except_cons_err t he⟩
    · cases hfa : f b a with
      | error e => exact ⟨e, foldlM_except_cons_err t hfa⟩
      | ok b' =>
        obtain ⟨e, he⟩ := ih b' hxt hf
        exact ⟨e, (foldlM_except_cons_ok t hfa).trans he⟩

/-- The four possible outcomes of one subkey step. -/
theorem loadSubkey_eq_err_in {key : String} {v : JVal} {acc : List (String × JVal)}
    {s : String × JVal} (hin : pyIn s.1 v = none) :
    loadSubkey key v acc s = .error (.pyTypeError key s.1) := by
  simp [loadSubkey, hin]

theorem loadSubkey_eq_default {key : String} {v : JVal} {acc : List (String × JVal)}
    {s : String × JVal} (hin : pyIn s.1 v = some false) :
    loadSubkey key v acc s = .ok (acc ++ [(s.1, s.2)]) := by
  simp [loadSubkey, hin]

theorem loadSubkey_eq_err_get {key : String} {v : JVal} {acc : List (String × JVal)}
    {s : String × JVal} (hin : pyIn s.1 v = some true) (hget : pyGet s.1 v = none) :
    loadSubkey key v acc s = .error (.pyTypeError key s.1) := by
  simp [loadSubkey, hin, hget]

theorem loadSubkey_eq_err_tag {key : String} {v : JVal} {acc : List (String × JVal)}
    {s : String × JVal} {value : JVal} (hin : pyIn s.1 v = some true)
    (hget : pyGet s.1 v = some value) (htag : jtag value ≠ jtag s.2) :
    loadSubkey key v acc s = .error (.wrongType key s.1) := by
  simp [loadSubkey, hin, hget, htag]

theorem loadSubkey_eq_taken {key : String} {v : JVal} {acc : List (String × JVal)}
    {s : String × JVal} {value : JVal} (hin : pyIn s.1 v = some true)
    (hget : pyGet s.1 v = some value) (htag : ¬jtag value ≠ jtag s.2) :
    loadSubkey key v acc s = .ok (acc ++ [(s.1, value)]) := by
  have heq : jtag value = jtag s.2 := not_not.mp htag
  simp [loadSubkey, hin, hget, heq]

/-- A successful subkey fold is exactly the defaults list with the
present, correctly-typed configuration values substituted in. -/
theorem loadSubkey_fold_map {key : String} {v : JVal} :
    ∀ (subs : List (String × JVal)) (acc sub : List (String × JVal)),
      List.foldlM (loadSubkey key v) acc subs = .ok sub →
      sub = acc ++ subs.map (fun s => (s.1,
        match pyIn s.1 v with
        | some true => (pyGet s.1 v).getD s.2
        | _ => s.2)) := by
  intro subs
  induction subs with
  | nil =>
    intro acc sub h
    rw [foldlM_except_nil] at h
    cases h
    simp
  | cons s t ih =>
    intro acc sub h
    cases hin : pyIn s.1 v with
    | none =>
      rw [foldlM_except_cons_err t (loadSubkey_eq_err_in hin)] at h
      exact absurd h (by simp)
    | some b =>
      cases b with
      | false =>
        rw [foldlM_except_cons_ok t (loadSubkey_eq_default hin)] at h
        have := ih _ _ h
        rw [this, List.map_cons]
        simp [hin]
      | true =>
        cases hget : pyGet s.1 v with
        | none =>
          rw [foldlM_except_cons_err t (loadSubkey_eq_err_get hin hget)] at h
          exact absurd h (by simp)
        | some value =>
          by_cases htag : jtag value ≠ jtag s.2
          · rw [foldlM_except_cons_err t (loadSubkey_eq_err_tag hin hget htag)] at h
            exact absurd h (by simp)
          · rw [foldlM_except_cons_ok t (loadSubkey_eq_taken hin hget htag)] at h
            have := ih _ _ h
            rw [this, List.map_cons]
            simp [hin, hget]

/-- Filtering cannot change a first-match lookup when every binding of
the looked-up key survives the filter. -/
theorem lookupS_filter {α : Type} (k : String) (p : String × α → Bool) :
    ∀ l : List (String × α), (∀ kv ∈ l, kv.1 = k → p kv = true) →
      lookupS k (l.filter p) = lookupS k l := by
  intro l
  induction l with
  | nil => intro _; rfl
  | cons kv t ih =>
    intro hall
    by_cases hk : kv.1 = k
    · have hp : p kv = true := hall kv (List.mem_cons_self _ _) hk
      rw [List.filter_cons_of_pos hp]
      rw [lookupS, lookupS, if_pos hk, if_pos hk]
    · by_cases hp : p kv = true
      · rw [List.filter_cons_of_pos hp]
        rw [lookupS, lookupS, if_neg hk, if_neg hk]
        exact ih (fun kv' h' => hall kv' (List.mem_cons_of_mem _ h'))
      · rw [List.filter_cons_of_neg (by simpa using hp)]
        rw [lookupS, if_neg hk]
        exact ih (fun kv' h' => hall kv' (List.mem_cons_of_mem _ h'))

/-- One recognized-key step, characterized. -/
theorem loadKey_eq_absent {options acc : List (String × JVal)} {key : String}
    {defs : List (String × JVal)} (hl : lookupS key options = none) :
    loadKey options acc (key, defs) = .ok (acc ++ [(key, .obj defs)]) := by
  simp [loadKey, hl]

theorem loadKey_eq_present {options acc : List (String × JVal)} {key : String}
    {defs : List (String × JVal)} {v : JVal} {sub : List (String × JVal)}
    (hl : lookupS key options = some v)
    (hf : List.foldlM (loadSubkey key v) [] defs = .ok sub) :
    loadKey options acc (key, defs) = .ok (acc ++ [(key, .obj sub)]) := by
  simp [loadKey, hl, hf]

theorem loadKey_eq_err {options acc : List (String × JVal)} {key : String}
    {defs : List (String × JVal)} {v : JVal} {e : CfgErr}
    (hl : lookupS key options = some v)
    (hf : List.foldlM (loadSubkey key v) [] defs = .error e) :
    loadKey options acc (key, defs) = .error e := by
  simp [loadKey, hl, hf]

/-- Shape of a successful `load_bakerfile`: the three recognized keys
in order, each an object (the full default when absent, the folded
subkeys when present), followed by the filtered passthrough keys. -/
theorem load_ok_parts {options res : List (String × JVal)}
    (h : load_bakerfile options = .ok res) :
    ∃ X1 X2 X3 : List (String × JVal),
      res = [("dirs", JVal.obj X1), ("flags", JVal.obj X2), ("options", JVal.obj X3)] ++
        options.filter (fun kv => (lookupS kv.1
          [("dirs", JVal.obj X1), ("flags", JVal.obj X2), ("options", JVal.obj X3)]).isNone) ∧
      ((lookupS "dirs" options = none ∧ X1 = (options_default.get ⟨0, by decide⟩).2) ∨
        (∃ v, lookupS "dirs" options = some v ∧
          List.foldlM (loadSubkey "dirs" v) [] (options_default.get ⟨0, by decide⟩).2 = .ok X1)) ∧
      ((lookupS "flags" options = none ∧ X2 = (options_default.get ⟨1, by decide⟩).2) ∨
        (∃ v, lookupS "flags" options = some v ∧
          List.foldlM (loadSubkey "flags" v) [] (options_default.get ⟨1, by decide⟩).2 = .ok X2)) ∧
      ((lookupS "options" options = none ∧ X3 = (options_default.get ⟨2, by decide⟩).2) ∨
        (∃ v, lookupS "options" options = some v ∧
          List.foldlM (loadSubkey "options" v) [] (options_default.get ⟨2, by decide⟩).2 =
            .ok X3)) := by
  unfold load_bakerfile at h
  by_cases ht : (lookupS "targets" options).isNone
  · rw [if_pos ht] at h; exact absurd h (by simp)
  · rw [if_neg ht] at h
    have step : ∀ (key : String) (defs acc : List (String × JVal)) (out : List (String × JVal)),
        loadKey options acc (key, defs) = .ok out →
        ∃ X, out = acc ++ [(key, JVal.obj X)] ∧
          ((lookupS key options = none ∧ X = defs) ∨
            (∃ v, lookupS key options = some v ∧
              List.foldlM (loadSubkey key v) [] defs = .ok X)) := by
      intro key defs acc out hk
      cases hl : lookupS key options with
      | none =>
        rw [loadKey_eq_absent hl] at hk
        cases hk
        exact ⟨defs, rfl, Or.inl ⟨rfl, rfl⟩⟩
      | some v =>
        cases hf : List.foldlM (loadSubkey key v) [] defs with
        | error e =>
          rw [loadKey_eq_err hl hf] at hk
          exact absurd hk (by simp)
        | ok sub =>
          rw [loadKey_eq_present hl hf] at hk
          cases hk
          exact ⟨sub, rfl, Or.inr ⟨v, rfl, hf⟩⟩
    cases hfold : List.foldlM (loadKey options) [] options_default with
    | error e => rw [hfold] at h; exact absurd h (by simp)
    | ok opts =>
      rw [hfold] at h
      cases h
      rw [show options_default = ("dirs", (options_default.get ⟨0, by decide⟩).2) ::
        ("flags", (options_default.get ⟨1, by decide⟩).2) ::
        [("options", (options_default.get ⟨2, by decide⟩).2)] from rfl] at hfold
      cases h1 : loadKey options [] ("dirs", (options_default.get ⟨0, by decide⟩).2) with
      | error e => rw [foldlM_except_cons_err _ h1] at hfold; exact absurd hfold (by simp)
      | ok o1 =>
        rw [foldlM_except_cons_ok _ h1] at hfold
        cases h2 : loadKey options o1 ("flags", (options_default.get ⟨1, by decide⟩).2) with
        | error e => rw [foldlM_except_cons_err _ h2] at hfold; exact absurd hfold (by simp)
        | ok o2 =>
          rw [foldlM_except_cons_ok _ h2] at hfold
          cases h3 : loadKey options o2 ("options", (options_default.get ⟨2, by decide⟩).2) with
          | error e => rw [foldlM_except_cons_err _ h3] at hfold; exact absurd hfold (by simp)
          | ok o3 =>
            rw [foldlM_except_cons_ok _ h3, foldlM_except_nil] at hfold
            cases hfold
            obtain ⟨X1, e1, f1⟩ := step _ _ _ _ h1
            obtain ⟨X2, e2, f2⟩ := step _ _ _ _ h2
            obtain ⟨X3, e3, f3⟩ := step _ _ _ _ h3
            subst e1; subst e2; subst e3
            exact ⟨X1, X2, X3, by simp, f1, f2, f3⟩

theorem lookupS_append {α : Type} (k : String) :
    ∀ l1 l2 : List (String × α),
      lookupS k (l1 ++ l2) =
        match lookupS k l1 with
        | some v => some v
        | none => lookupS k l2 := by
  intro l1 l2
  induction l1 with
  | nil => rfl
  | cons kv t ih =>
    by_cases hk : kv.1 = k
    · rw [show (kv :: t) ++ l2 = kv :: (t ++ l2) from rfl]
      rw [show lookupS k (kv :: (t ++ l2)) = if kv.1 = k then some kv.2
        else lookupS k (t ++ l2) from rfl]
      rw [show lookupS k (kv :: t) = if kv.1 = k then some kv.2 else lookupS k t from rfl]
      rw [if_pos hk, if_pos hk]
    · rw [show (kv :: t) ++ l2 = kv :: (t ++ l2) from rfl]
      rw [show lookupS k (kv :: (t ++ l2)) = if kv.1 = k then some kv.2
        else lookupS k (t ++ l2) from rfl]
      rw [show lookupS k (kv :: t) = if kv.1 = k then some kv.2 else lookupS k t from rfl]
      rw [if_neg hk, if_neg hk, ih]

/-- Claim C10: when the configuration object is loaded, (a) every
recognized key absent from the file takes its full built-in default,
(b) every recognized subkey absent from a present recognized key's
object takes its built-in default value, (c) every recognized subkey
present with a value of the wrong Python type is a fatal error, and
(d) every unrecognized top-level key is carried into the resulting
options unmodified. -/
theorem c10_load_bakerfile (options : List (String × JVal)) :
    (∀ res, load_bakerfile options = .ok res →
      ∀ kd ∈ options_default, lookupS kd.1 options = none →
        lookupS kd.1 res = some (.obj kd.2)) ∧
    (∀ res, load_bakerfile options = .ok res →
      ∀ kd ∈ options_default, ∀ m, lookupS kd.1 options = some (.obj m) →
        ∀ sd ∈ kd.2, lookupS sd.1 m = none →
          ∃ sub, lookupS kd.1 res = some (.obj sub) ∧ lookupS sd.1 sub = some sd.2) ∧
    (∀ kd ∈ options_default, ∀ m, lookupS kd.1 options = some (.obj m) →
      ∀ sd ∈ kd.2, ∀ value, lookupS sd.1 m = some value → jtag value ≠ jtag sd.2 →
        ∃ e, load_bakerfile options = .error e) ∧
    (∀ res, load_bakerfile options = .ok res →
      ∀ k, ¬(k = "dirs" ∨ k = "flags" ∨ k = "options") →
        lookupS k res = lookupS k options) := by
  refine ⟨?_, ?_, ?_, ?_⟩
  · -- (a) absent recognized key
    intro res h kd hkd hl
    obtain ⟨X1, X2, X3, hres, f1, f2, f3⟩ := load_ok_parts h
    rw [hres]
    simp only [options_default, List.mem_cons, List.mem_singleton] at hkd
    rcases hkd with rfl | rfl | rfl | hkd
    · rcases f1 with ⟨_, hx⟩ | ⟨v, hv, _⟩
      · rw [lookupS_append]
        simp [lookupS, hx, options_default]
      · rw [hv] at hl; exact absurd hl (by simp)
    · rcases f2 with ⟨_, hx⟩ | ⟨v, hv, _⟩
      · rw [lookupS_append]
        simp [lookupS, hx, options_default]
      · rw [hv] at hl; exact absurd hl (by simp)
    · rcases f3 with ⟨_, hx⟩ | ⟨v, hv, _⟩
      · rw [lookupS_append]
        simp [lookupS, hx, options_default]
      · rw [hv] at hl; exact absurd hl (by simp)
    · exact absurd hkd (by simp)
  · -- (b) absent recognized subkey of a present key
    intro res h kd hkd m hm sd hsd hsub
    obtain ⟨X1, X2, X3, hres, f1, f2, f3⟩ := load_ok_parts h
    have hpyIn : pyIn sd.1 (.obj m) = some false := by simp [pyIn, hsub]
    rw [hres]
    simp only [options_default, List.mem_cons, List.mem_singleton] at hkd
    rcases hkd with rfl | rfl | rfl | hkd
    · rcases f1 with ⟨hn, _⟩ | ⟨v, hv, hf⟩
      · rw [hm] at hn; exact absurd hn (by simp)
      · rw [hm] at hv
        cases hv
        have hX := loadSubkey_fold_map _ _ _ hf
        refine ⟨X1, ?_, ?_⟩
        · rw [lookupS_append]; simp [lookupS]
        · rw [hX]
          simp only [List.nil_append]
          simp only [List.mem_cons, List.mem_singleton] at hsd
          rcases hsd with rfl | rfl | rfl | rfl | hsd
          · simp [lookupS, hpyIn]
          · simp [lookupS, hpyIn]
          · simp [lookupS, hpyIn]
          · simp [lookupS, hpyIn]
          · exact absurd hsd (by simp)
    · rcases f2 with ⟨hn, _⟩ | ⟨v, hv, hf⟩
      · rw [hm] at hn; exact absurd hn (by simp)
      · rw [hm] at hv
        cases hv
        have hX := loadSubkey_fold_map _ _ _ hf
        refine ⟨X2, ?_, ?_⟩
        · rw [lookupS_append]; simp [lookupS]
        · rw [hX]
          simp only [List.nil_append]
          simp only [List.mem_cons, List.mem_singleton] at hsd
          rcases hsd with rfl | rfl | rfl | hsd
          · simp [lookupS, hpyIn]
          · simp [lookupS, hpyIn]
          · simp [lookupS, hpyIn]
          · exact absurd hsd (by simp)
    · rcases f3 with ⟨hn, _⟩ | ⟨v, hv, hf⟩
      · rw [hm] at hn; exact absurd hn (by simp)
      · rw [hm] at hv
        cases hv
        have hX := loadSubkey_fold_map _ _ _ hf
        refine ⟨X3, ?_, ?_⟩
        · rw [lookupS_append]; simp [lookupS]
        · rw [hX]
          simp only [List.nil_append]
          simp only [List.mem_cons, List.mem_singleton] at hsd
          rcases hsd with rfl | hsd
          · simp [lookupS, hpyIn]
          · exact absurd hsd (by simp)
    · exact absurd hkd (by simp)
  · -- (c) wrong-typed present subkey is fatal
    intro kd hkd m hm sd hsd value hval htag
    obtain ⟨key, defs⟩ := kd
    have hstep : ∀ acc, ∃ e, loadSubkey key (.obj m) acc sd = .error e := by
      intro acc
      have hin : pyIn sd.1 (.obj m) = some true := by simp [pyIn, hval]
      have hget : pyGet sd.1 (.obj m) = some value := by simp [pyGet, hval]
      exact ⟨_, loadSubkey_eq_err_tag hin hget htag⟩
    obtain ⟨e1, he1⟩ := foldlM_err (loadSubkey key (.obj m)) defs [] hsd hstep
    have hkey : ∀ acc, ∃ e, loadKey options acc (key, defs) = .error e := by
      intro acc
      exact ⟨e1, loadKey_eq_err hm he1⟩
    obtain ⟨e2, he2⟩ := foldlM_err (loadKey options) options_default [] hkd hkey
    by_cases ht : (lookupS "targets" options).isNone
    · exact ⟨.missingTargets, by unfold load_bakerfile; rw [if_pos ht]⟩
    · refine ⟨e2, ?_⟩
      unfold load_bakerfile
      rw [if_neg ht, he2]
  · -- (d) unrecognized keys pass through
    intro res h k hk
    push_neg at hk
    obtain ⟨hk1, hk2, hk3⟩ := hk
    obtain ⟨X1, X2, X3, hres, _, _, _⟩ := load_ok_parts h
    have hnone : lookupS k [("dirs", JVal.obj X1), ("flags", JVal.obj X2),
        ("options", JVal.obj X3)] = none := by
      rw [show lookupS k [("dirs", JVal.obj X1), ("flags", JVal.obj X2),
        ("options", JVal.obj X3)] = if "dirs" = k then some (JVal.obj X1)
        else if "flags" = k then some (JVal.obj X2)
        else if "options" = k then some (JVal.obj X3) else none from rfl]
      rw [if_neg (fun hh => hk1 hh.symm), if_neg (fun hh => hk2 hh.symm),
        if_neg (fun hh => hk3 hh.symm)]
    rw [hres, lookupS_append, hnone]
    exact lookupS_filter k _ options (fun kv _ hkv => by rw [hkv, hnone]; rfl)

/-- Witness for C10 at concrete configurations: an absent `dirs` key
defaults wholly; a present `dirs` with only `source` set gets the
default `build` subkey; a numeric `dirs > source` is a fatal error;
the unrecognized key `custom` passes through unchanged. -/
theorem c10_witness :
    lookupS "dirs" [("dirs", JVal.obj [("source", JVal.str "src"), ("build", JVal.str "build"),
        ("object", JVal.str "object"), ("header_units", JVal.str "header_units")]),
      ("flags", JVal.obj [("debug", JVal.arr [JVal.str "-g", JVal.str "-DDEBUG"]),
        ("release", JVal.arr [JVal.str "-O3", JVal.str "-DNDEBUG"]),
        ("base", JVal.arr [JVal.str "-std=c++23", JVal.str "-Wno-experimental-header-units"])]),
      ("options", JVal.obj [("cxx", JVal.str "clang++")]),
      ("targets", JVal.obj []), ("custom", JVal.num 7)] =
      some (.obj [("source", JVal.str "src"), ("build", JVal.str "build"),
        ("object", JVal.str "object"), ("header_units", JVal.str "header_units")]) ∧
    (∃ sub, lookupS "dirs" [("dirs", JVal.obj [("source", JVal.str "x"),
        ("build", JVal.str "build"), ("object", JVal.str "object"),
        ("header_units", JVal.str "header_units")]),
      ("flags", JVal.obj [("debug", JVal.arr [JVal.str "-g", JVal.str "-DDEBUG"]),
        ("release", JVal.arr [JVal.str "-O3", JVal.str "-DNDEBUG"]),
        ("base", JVal.arr [JVal.str "-std=c++23", JVal.str "-Wno-experimental-header-units"])]),
      ("options", JVal.obj [("cxx", JVal.str "clang++")]),
      ("targets", JVal.obj [])] = some (.obj sub) ∧
      lookupS "build" sub = some (JVal.str "build")) ∧
    (∃ e, load_bakerfile [("targets", JVal.obj []),
      ("dirs", JVal.obj [("source", JVal.num 3)])] = .error e) ∧
    lookupS "custom" [("dirs", JVal.obj [("source", JVal.str "src"), ("build", JVal.str "build"),
        ("object", JVal.str "object"), ("header_units", JVal.str "header_units")]),
      ("flags", JVal.obj [("debug", JVal.arr [JVal.str "-g", JVal.str "-DDEBUG"]),
        ("release", JVal.arr [JVal.str "-O3", JVal.str "-DNDEBUG"]),
        ("base", JVal.arr [JVal.str "-std=c++23", JVal.str "-Wno-experimental-header-units"])]),
      ("options", JVal.obj [("cxx", JVal.str "clang++")]),
      ("targets", JVal.obj []), ("custom", JVal.num 7)] =
      lookupS "custom" [("targets", JVal.obj []), ("custom", JVal.num 7)] := by
  refine ⟨?_, ?_, ?_, ?_⟩
  · exact (c10_load_bakerfile [("targets", JVal.obj []), ("custom", JVal.num 7)]).1
      _ rfl _ (List.mem_cons_self _ _) rfl
  · exact (c10_load_bakerfile [("targets", JVal.obj []),
      ("dirs", JVal.obj [("source", JVal.str "x")])]).2.1
      _ rfl _ (List.mem_cons_self _ _) _ rfl _
      (List.mem_cons_of_mem _ (List.mem_cons_self _ _)) rfl
  · exact (c10_load_bakerfile [("targets", JVal.obj []),
      ("dirs", JVal.obj [("source", JVal.num 3)])]).2.2.1
      _ (List.mem_cons_self _ _) _ rfl _ (List.mem_cons_self _ _) _ rfl (by decide)
  · exact (c10_load_bakerfile [("targets", JVal.obj []), ("custom", JVal.num 7)]).2.2.2
      _ rfl _ (by decide)

/-! ### Claim C5: recorded depths and parents follow the reach events -/

theorem lookupN_insertN_self (k v : Nat) :
    ∀ l : List (Nat × Nat), lookupN k (insertN k v l) = some v := by
  intro l
  induction l with
  | nil => simp [insertN, lookupN]
  | cons kv t ih =>
    by_cases hk : kv.1 = k
    · rw [show insertN k v (kv :: t) = if kv.1 = k then (kv.1, v) :: t
        else kv :: insertN k v t from by obtain ⟨a, b⟩ := kv; rfl]
      rw [if_pos hk, lookupN, if_pos hk]
    · rw [show insertN k v (kv :: t) = if kv.1 = k then (kv.1, v) :: t
        else kv :: insertN k v t from by obtain ⟨a, b⟩ := kv; rfl]
      rw [if_neg hk]
      rw [show lookupN k (kv :: insertN k v t) = if kv.1 = k then some kv.2
        else lookupN k (insertN k v t) from by obtain ⟨a, b⟩ := kv; rfl]
      rw [if_neg hk, ih]

theorem lookupN_insertN_ne {k k' : Nat} (v : Nat) (hne : k' ≠ k) :
    ∀ l : List (Nat × Nat), lookupN k' (insertN k v l) = lookupN k' l := by
  intro l
  induction l with
  | nil => simp [insertN, lookupN, Ne.symm hne]
  | cons kv t ih =>
    by_cases hk : kv.1 = k
    · rw [show insertN k v (kv :: t) = if kv.1 = k then (kv.1, v) :: t
        else kv :: insertN k v t from by obtain ⟨a, b⟩ := kv; rfl]
      rw [if_pos hk]
      rw [show lookupN k' ((kv.1, v) :: t) = if kv.1 = k' then some v
        else lookupN k' t from rfl]
      rw [show lookupN k' (kv :: t) = if kv.1 = k' then some kv.2
        else lookupN k' t from by obtain ⟨a, b⟩ := kv; rfl]
      rw [if_neg (by rw [hk]; exact fun hh => hne hh.symm),
        if_neg (by rw [hk]; exact fun hh => hne hh.symm)]
    · rw [show insertN k v (kv :: t) = if kv.1 = k then (kv.1, v) :: t
        else kv :: insertN k v t from by obtain ⟨a, b⟩ := kv; rfl]
      rw [if_neg hk]
      rw [show lookupN k' (kv :: insertN k v t) = if kv.1 = k' then some kv.2
        else lookupN k' (insertN k v t) from by obtain ⟨a, b⟩ := kv; rfl]
      rw [show lookupN k' (kv :: t) = if kv.1 = k' then some kv.2
        else lookupN k' t from by obtain ⟨a, b⟩ := kv; rfl]
      by_cases hk' : kv.1 = k'
      · rw [if_pos hk', if_pos hk']
      · rw [if_neg hk', if_neg hk', ih]

theorem eventDepths_append (tr : List (Nat × Nat × Nat)) (n depth c c' : Nat) :
    eventDepths (tr ++ [(n, depth, c)]) c' =
      eventDepths tr c' ++ (if c' = c then [depth] else []) := by
  unfold eventDepths
  rw [List.filter_append, List.map_append]
  congr 1
  by_cases h : c' = c
  · subst h; simp
  · have h2 : ¬c = c' := fun hh => h hh.symm
    simp [h, h2]

theorem listMaxO_append (l : List Nat) (a : Nat) :
    listMaxO (l ++ [a]) =
      some (match listMaxO l with | none => a | some m => max m a) := by
  induction l with
  | nil => rfl
  | cons x t ih =>
    rw [List.cons_append, listMaxO, ih, listMaxO]
    cases ht : listMaxO t with
    | none => simp [Nat.max_comm]
    | some m => simp [Nat.max_assoc]

theorem listMaxO_eq_none {l : List Nat} (h : listMaxO l = none) : l = [] := by
  cases l with
  | nil => rfl
  | cons x t =>
    rw [listMaxO] at h
    cases ht : listMaxO t <;> rw [ht] at h <;> simp at h

theorem listMaxO_le {l : List Nat} {m : Nat} (h : listMaxO l = some m) :
    ∀ x ∈ l, x ≤ m := by
  induction l generalizing m with
  | nil => intro x hx; simp at hx
  | cons a t ih =>
    intro x hx
    rw [listMaxO] at h
    cases ht : listMaxO t with
    | none =>
      rw [ht] at h
      cases h
      rw [listMaxO_eq_none ht] at hx
      simp at hx
      omega
    | some m' =>
      rw [ht] at h
      cases h
      rcases List.mem_cons.mp hx with rfl | hxt
      · exact Nat.le_max_left _ _
      · exact le_trans (ih ht x hxt) (Nat.le_max_right _ _)

theorem listMaxO_mem {l : List Nat} {m : Nat} (h : listMaxO l = some m) : m ∈ l := by
  induction l generalizing m with
  | nil => simp [listMaxO] at h
  | cons a t ih =>
    rw [listMaxO] at h
    cases ht : listMaxO t with
    | none => rw [ht] at h; cases h; exact List.mem_cons_self _ _
    | some m' =>
      rw [ht] at h
      cases h
      rcases max_choice a m' with hm | hm
      · rw [hm]; exact List.mem_cons_self _ _
      · rw [hm]; exact List.mem_cons_of_mem _ (ih ht)

theorem findF_append {α : Type} (p : α → Bool) (l1 l2 : List α) :
    findF p (l1 ++ l2) =
      match findF p l1 with
      | some x => some x
      | none => findF p l2 := by
  induction l1 with
  | nil => rfl
  | cons a t ih =>
    by_cases hp : p a
    · rw [List.cons_append, findF, findF, if_pos hp, if_pos hp]
    · rw [List.cons_append, findF, findF, if_neg hp, if_neg hp, ih]

theorem findF_eq_none {α : Type} {p : α → Bool} :
    ∀ {l : List α}, (∀ x ∈ l, p x = false) → findF p l = none := by
  intro l
  induction l with
  | nil => intro _; rfl
  | cons a t ih =>
    intro hall
    rw [findF, if_neg (by simp [hall a (List.mem_cons_self _ _)]), ih]
    intro x hx
    exact hall x (List.mem_cons_of_mem _ hx)

theorem findF_isSome {α : Type} {p : α → Bool} :
    ∀ {l : List α}, (∃ x ∈ l, p x = true) → ∃ y, findF p l = some y := by
  intro l
  induction l with
  | nil => intro ⟨x, hx, _⟩; simp at hx
  | cons a t ih =>
    intro ⟨x, hx, hpx⟩
    by_cases hp : p a
    · exact ⟨a, by rw [findF, if_pos hp]⟩
    · rcases List.mem_cons.mp hx with rfl | hxt
      · exact absurd hpx (by simp [hp])
      · obtain ⟨y, hy⟩ := ih ⟨x, hxt, hpx⟩
        exact ⟨y, by rw [findF, if_neg hp, hy]⟩

theorem eventDepths_exists {tr : List (Nat × Nat × Nat)} {c m : Nat}
    (h : m ∈ eventDepths tr c) :
    ∃ e ∈ tr, (decide (e.2.2 = c) && decide (e.2.1 = m)) = true := by
  unfold eventDepths at h
  obtain ⟨e, he, hm⟩ := List.mem_map.mp h
  have hef := List.mem_filter.mp he
  exact ⟨e, hef.1, by simp [of_decide_eq_true hef.2, hm]⟩

theorem eventDepths_of_mem {tr : List (Nat × Nat × Nat)} {e : Nat × Nat × Nat} {c : Nat}
    (he : e ∈ tr) (hc : e.2.2 = c) : e.2.1 ∈ eventDepths tr c := by
  unfold eventDepths
  exact List.mem_map_of_mem _ (List.mem_filter.mpr ⟨he, by simp [hc]⟩)

theorem firstMaxParent_extend_ne {tr : List (Nat × Nat × Nat)} {n depth c c' : Nat}
    (h : c' ≠ c) :
    firstMaxParent (tr ++ [(n, depth, c)]) c' = firstMaxParent tr c' := by
  unfold firstMaxParent
  rw [eventDepths_append, if_neg h, List.append_nil]
  cases hm : listMaxO (eventDepths tr c') with
  | none => rfl
  | some m =>
    simp only []
    rw [findF_append]
    cases hf : findF (fun e => decide (e.2.2 = c') && decide (e.2.1 = m)) tr with
    | some y => rfl
    | none =>
      have h2 : ¬(c = c') := fun hh => h hh.symm
      simp [findF, h2]

theorem firstMaxParent_extend_newmax {tr : List (Nat × Nat × Nat)} {n depth c : Nat}
    (hmax : ∀ x ∈ eventDepths tr c, x < depth) :
    firstMaxParent (tr ++ [(n, depth, c)]) c = some n := by
  unfold firstMaxParent
  rw [eventDepths_append, if_pos rfl, listMaxO_append]
  have hval : (match listMaxO (eventDepths tr c) with
      | none => depth | some m => max m depth) = depth := by
    cases hm : listMaxO (eventDepths tr c) with
    | none => rfl
    | some m => exact Nat.max_eq_right (le_of_lt (hmax m (listMaxO_mem hm)))
  rw [hval]
  simp only []
  rw [findF_append]
  have hnone : findF (fun e => decide (e.2.2 = c) && decide (e.2.1 = depth)) tr = none := by
    apply findF_eq_none
    intro e he
    by_cases hec : e.2.2 = c
    · have := hmax _ (eventDepths_of_mem he hec)
      simp [Nat.ne_of_lt this]
    · simp [hec]
  rw [hnone]
  simp [findF]

theorem firstMaxParent_extend_le {tr : List (Nat × Nat × Nat)} {n depth c d0 : Nat}
    (hm : listMaxO (eventDepths tr c) = some d0) (hle : depth ≤ d0) :
    firstMaxParent (tr ++ [(n, depth, c)]) c = firstMaxParent tr c := by
  unfold firstMaxParent
  rw [eventDepths_append, if_pos rfl, listMaxO_append, hm]
  simp only [Nat.max_eq_left hle]
  obtain ⟨e, he, hpe⟩ := eventDepths_exists (listMaxO_mem hm)
  obtain ⟨y, hy⟩ :=
    @findF_isSome _ (fun e => decide (e.2.2 = c) && decide (e.2.1 = d0)) tr ⟨e, he, hpe⟩
  rw [findF_append, hy]

/-- The initial resolution state satisfies the invariant. -/
theorem fillInv_init (st0 : Store) (root : Nat) :
    fillInv st0
      { store := st0, node_depth := [], last_node_depth := -1, last_node := root,
        trace := [] } :=
  fun _ => ⟨rfl, fun _ => rfl⟩

/-- Rewriting a node's children (identifier resolution) preserves the
invariant. -/
theorem fillInv_resolve {st0 : Store} {st : RSt} (n : Nat) (cs : List Child)
    (h : fillInv st0 st) :
    fillInv st0 { st with store := setN st.store n { getN st.store n with children := cs } } := by
  intro c
  obtain ⟨h1, h2⟩ := h c
  refine ⟨h1, ?_⟩
  intro hc
  have hlen : c < st.store.length := by simpa [setN] using hc
  have hpar : (getN (setN st.store n { getN st.store n with children := cs }) c).parent =
      (getN st.store c).parent := by
    rw [getN_setN]
    by_cases hcn : c = n ∧ n < st.store.length
    · rw [if_pos hcn, hcn.1]
    · rw [if_neg hcn]
  have h2' := h2 hlen
  cases hfm : firstMaxParent st.trace c with
  | some p =>
    simp only [hfm] at h2' ⊢
    rw [hpar]
    exact h2'
  | none =>
    simp only [hfm] at h2' ⊢
    rw [hpar]
    exact h2'

theorem reachChild_update {st : RSt} {n depth c : Nat}
    (hup : lookupN c st.node_depth = none ∨
      ∃ d0, lookupN c st.node_depth = some d0 ∧ depth > d0) :
    reachChild st n depth c =
      { store := setN st.store c { getN st.store c with parent := some n },
        node_depth := insertN c depth st.node_depth,
        last_node_depth := st.last_node_depth, last_node := st.last_node,
        trace := st.trace ++ [(n, depth, c)] } := by
  unfold reachChild
  rcases hup with hnd | ⟨d0, hnd, hgt⟩
  · simp [hnd]
  · simp [hnd, hgt]

theorem reachChild_noupdate {st : RSt} {n depth c d0 : Nat}
    (hnd : lookupN c st.node_depth = some d0) (hle : ¬depth > d0) :
    reachChild st n depth c = { st with trace := st.trace ++ [(n, depth, c)] } := by
  unfold reachChild
  simp [hnd, hle]

theorem fillInv_update_core {st0 : Store} {st : RSt} (n depth c : Nat)
    (h : fillInv st0 st)
    (hmaxlt : ∀ x ∈ eventDepths st.trace c, x < depth) :
    fillInv st0
      { store := setN st.store c { getN st.store c with parent := some n },
        node_depth := insertN c depth st.node_depth,
        last_node_depth := st.last_node_depth, last_node := st.last_node,
        trace := st.trace ++ [(n, depth, c)] } := by
  intro c'
  obtain ⟨h1, h2⟩ := h c'
  by_cases hcc : c' = c
  · subst hcc
    constructor
    · show lookupN c' (insertN c' depth st.node_depth) = _
      rw [lookupN_insertN_self, eventDepths_append, if_pos rfl, listMaxO_append]
      have hval : (match listMaxO (eventDepths st.trace c') with
          | none => depth | some m => max m depth) = depth := by
        cases hm : listMaxO (eventDepths st.trace c') with
        | none => rfl
        | some m => exact Nat.max_eq_right (le_of_lt (hmaxlt m (listMaxO_mem hm)))
      rw [hval]
    · intro hc
      show (match firstMaxParent (st.trace ++ [(n, depth, c')]) c' with
        | some p => (getN (setN st.store c' { getN st.store c' with parent := some n }) c').parent = some p
        | none => (getN (setN st.store c' { getN st.store c' with parent := some n }) c').parent =
            (getN st0 c').parent)
      rw [firstMaxParent_extend_newmax hmaxlt]
      have hlen : c' < st.store.length := by simpa [setN] using hc
      simp only []
      rw [getN_setN, if_pos ⟨rfl, hlen⟩]
  · constructor
    · show lookupN c' (insertN c depth st.node_depth) = _
      rw [lookupN_insertN_ne _ hcc, eventDepths_append, if_neg hcc, List.append_nil]
      exact h1
    · intro hc
      have hlen : c' < st.store.length := by simpa [setN] using hc
      have hpar : (getN (setN st.store c { getN st.store c with parent := some n }) c').parent =
          (getN st.store c').parent := by
        rw [getN_setN, if_neg (fun hh => hcc hh.1)]
      have h2' := h2 hlen
      show (match firstMaxParent (st.trace ++ [(n, depth, c)]) c' with
        | some p => (getN (setN st.store c { getN st.store c with parent := some n }) c').parent = some p
        | none => (getN (setN st.store c { getN st.store c with parent := some n }) c').parent =
            (getN st0 c').parent)
      rw [firstMaxParent_extend_ne hcc]
      cases hfm : firstMaxParent st.trace c' with
      | some p =>
        simp only [hfm] at h2' ⊢
        rw [hpar]
        exact h2'
      | none =>
        simp only [hfm] at h2' ⊢
        rw [hpar]
        exact h2'

theorem fillInv_noupdate_core {st0 : Store} {st : RSt} (n depth c d0 : Nat)
    (h : fillInv st0 st) (hnd : lookupN c st.node_depth = some d0) (hle : depth ≤ d0) :
    fillInv st0 { st with trace := st.trace ++ [(n, depth, c)] } := by
  intro c'
  obtain ⟨h1, h2⟩ := h c'
  by_cases hcc : c' = c
  · subst hcc
    have hm : listMaxO (eventDepths st.trace c') = some d0 := h1.symm.trans hnd
    constructor
    · show lookupN c' st.node_depth = _
      rw [eventDepths_append, if_pos rfl, listMaxO_append, hm, hnd]
      show some d0 = some (max d0 depth)
      rw [Nat.max_eq_left hle]
    · intro hc
      show (match firstMaxParent (st.trace ++ [(n, depth, c')]) c' with
        | some p => (getN st.store c').parent = some p
        | none => (getN st.store c').parent = (getN st0 c').parent)
      rw [firstMaxParent_extend_le hm hle]
      exact h2 hc
  · constructor
    · show lookupN c' st.node_depth = _
      rw [eventDepths_append, if_neg hcc, List.append_nil]
      exact h1
    · intro hc
      show (match firstMaxParent (st.trace ++ [(n, depth, c)]) c' with
        | some p => (getN st.store c').parent = some p
        | none => (getN st.store c').parent = (getN st0 c').parent)
      rw [firstMaxParent_extend_ne hcc]
      exact h2 hc

/-- A reach event preserves the invariant. -/
theorem fillInv_reach {st0 : Store} {st : RSt} (n depth c : Nat) (h : fillInv st0 st) :
    fillInv st0 (reachChild st n depth c) := by
  cases hnd : lookupN c st.node_depth with
  | none =>
    rw [reachChild_update (Or.inl hnd)]
    apply fillInv_update_core n depth c h
    intro x hx
    have := (h c).1
    rw [hnd] at this
    rw [listMaxO_eq_none this.symm] at hx
    simp at hx
  | some d0 =>
    by_cases hgt : depth > d0
    · rw [reachChild_update (Or.inr ⟨d0, hnd, hgt⟩)]
      apply fillInv_update_core n depth c h
      intro x hx
      have hm : listMaxO (eventDepths st.trace c) = some d0 := ((h c).1).symm.trans hnd
      exact lt_of_le_of_lt (listMaxO_le hm x hx) hgt
    · rw [reachChild_noupdate hnd hgt]
      exact fillInv_noupdate_core n depth c d0 h hnd (le_of_not_lt hgt)

theorem fill_run_node_eq (cls : Classes) (fuel : Nat) (st : RSt) (n depth : Nat) :
    fill_run cls (fuel + 1) st (.node n depth) =
      fillNodeBody cls fuel n depth
        (if (depth : Int) > st.last_node_depth then
          { st with last_node_depth := (depth : Int), last_node := n } else st) := rfl

/-- The invariant is preserved by any successful resolution run. -/
theorem fill_run_fillInv (cls : Classes) (st0 : Store) :
    ∀ fuel (st : RSt) (task : FillTask) (st' : RSt),
      fillInv st0 st → fill_run cls fuel st task = .ok st' → fillInv st0 st' := by
  intro fuel
  induction fuel with
  | zero =>
    intro st task st' _ h
    exact absurd h (by simp [fill_run])
  | succ fuel ih =>
    intro st task st' hinv h
    cases task with
    | node n depth =>
      rw [fill_run_node_eq] at h
      have hinvA : fillInv st0 (if (depth : Int) > st.last_node_depth then
          { st with last_node_depth := (depth : Int), last_node := n } else st) := by
        by_cases hc : (depth : Int) > st.last_node_depth
        · rw [if_pos hc]; exact hinv
        · rw [if_neg hc]; exact hinv
      set stA := (if (depth : Int) > st.last_node_depth then
          { st with last_node_depth := (depth : Int), last_node := n } else st) with hstA
      cases hres : resolveChildren cls (getN stA.store n).data.module (getN stA.store n).children with
      | error e =>
        simp only [fillNodeBody, hres] at h
        exact absurd h (by simp)
      | ok cs =>
        simp only [fillNodeBody, hres] at h
        exact ih _ _ _ (fillInv_resolve n cs hinvA) h
    | kids n depth k =>
      cases k with
      | zero =>
        rw [show fill_run cls (fuel + 1) st (.kids n depth 0) = .ok st from rfl] at h
        injection h with h2
        subst h2
        exact hinv
      | succ k =>
        rw [show fill_run cls (fuel + 1) st (.kids n depth (k + 1)) =
            (match (getN st.store n).children.get?
                ((getN st.store n).children.length - (k + 1)) with
             | none => .error .pyError
             | some (.ident _) => .error .pyError
             | some (.node c) =>
               match fill_run cls fuel (reachChild st n depth c) (.node c (depth + 1)) with
               | .error e => .error e
               | .ok st2 => fill_run cls fuel st2 (.kids n depth k)) from rfl] at h
        cases hget : (getN st.store n).children.get?
            ((getN st.store n).children.length - (k + 1)) with
        | none =>
          simp only [hget] at h
          exact absurd h (by simp)
        | some ch =>
          cases ch with
          | ident s =>
            simp only [hget] at h
            exact absurd h (by simp)
          | node c =>
            simp only [hget] at h
            cases hrec : fill_run cls fuel (reachChild st n depth c) (.node c (depth + 1)) with
            | error e =>
              simp only [hrec] at h
              exact absurd h (by simp)
            | ok st2 =>
              simp only [hrec] at h
              exact ih _ _ _ (ih _ _ _ (fillInv_reach n depth c hinv) hrec) h

/-- C5: after a successful `build_dependency_tree` run, every node's
recorded `node_depth` entry equals the maximum depth over all reach
events of that node during resolution (`none` when never reached), and
its parent reference is the traverser of the first reach event
attaining that maximum — so the deepest reach owns the node and ties
go to the first-discovered parent — while a never-reached node keeps
its original parent. -/
theorem c5_depth_is_max_reach_parent_is_first_max (cls : Classes) (fuel : Nat)
    (st0 : Store) (root : Nat) (st : RSt)
    (h : build_dependency_tree cls fuel st0 root = .ok st) :
    ∀ c, lookupN c st.node_depth = listMaxO (eventDepths st.trace c) ∧
      (c < st.store.length →
        match firstMaxParent st.trace c with
        | some p => (getN st.store c).parent = some p
        | none => (getN st.store c).parent = (getN st0 c).parent) :=
  fill_run_fillInv cls st0 fuel _ _ st (fillInv_init st0 root) h

theorem c5_witness :
    build_dependency_tree diamondClasses 10 diamondStore 0 = .ok
      { store :=
          [ { parent := none, children := [.node 1, .node 2],
              data := mkData .plain "" "app/main.cpp" ["A", "C"] },
            { parent := some 0, children := [.node 2],
              data := mkData .module "A" "app/a.cppm" ["C"] },
            { parent := some 1, children := [],
              data := mkData .module "C" "app/c.cppm" [] } ],
        node_depth := [(1, 0), (2, 1)], last_node_depth := 2, last_node := 2,
        trace := [(0, 0, 1), (1, 1, 2), (0, 0, 2)] } ∧
    ((2 : Nat) < 3 → True) ∧
    (lookupN 2 [(1, 0), (2, 1)] =
        listMaxO (eventDepths [(0, 0, 1), (1, 1, 2), (0, 0, 2)] 2) ∧
      ((2 : Nat) < 3 →
        match firstMaxParent [(0, 0, 1), (1, 1, 2), (0, 0, 2)] 2 with
        | some p =>
          (getN
            [ { parent := none, children := [.node 1, .node 2],
                data := mkData .plain "" "app/main.cpp" ["A", "C"] },
              { parent := some 0, children := [.node 2],
                data := mkData .module "A" "app/a.cppm" ["C"] },
              { parent := some 1, children := [],
                data := mkData .module "C" "app/c.cppm" [] } ] 2).parent = some p
        | none =>
          (getN
            [ { parent := none, children := [.node 1, .node 2],
                data := mkData .plain "" "app/main.cpp" ["A", "C"] },
              { parent := some 0, children := [.node 2],
                data := mkData .module "A" "app/a.cppm" ["C"] },
              { parent := some 1, children := [],
                data := mkData .module "C" "app/c.cppm" [] } ] 2).parent =
            (getN diamondStore 2).parent)) := by
  have hb : build_dependency_tree diamondClasses 10 diamondStore 0 = .ok
      { store :=
          [ { parent := none, children := [.node 1, .node 2],
              data := mkData .plain "" "app/main.cpp" ["A", "C"] },
            { parent := some 0, children := [.node 2],
              data := mkData .module "A" "app/a.cppm" ["C"] },
            { parent := some 1, children := [],
              data := mkData .module "C" "app/c.cppm" [] } ],
        node_depth := [(1, 0), (2, 1)], last_node_depth := 2, last_node := 2,
        trace := [(0, 0, 1), (1, 1, 2), (0, 0, 2)] } := by decide
  exact ⟨hb, fun _ => trivial,
    c5_depth_is_max_reach_parent_is_first_max diamondClasses 10 diamondStore 0 _ hb 2⟩

theorem getN_out (st : Store) (i : Nat) (hi : ¬ i < st.length) :
    getN st i = { data := defaultData } := by
  have hle : st.length ≤ i := le_of_not_lt hi
  simp [getN, List.getD_eq_getElem?_getD, List.getElem?_eq_none hle]

theorem setN_children_mem (st : Store) (n : Nat) (cs : List Child) :
    ∀ c, c ∈ (getN (setN st n { getN st n with children := cs }) n).children → c ∈ cs := by
  intro c hm
  rw [getN_setN] at hm
  by_cases hn : n < st.length
  · rw [if_pos ⟨rfl, hn⟩] at hm
    exact hm
  · rw [if_neg (fun hh => hn hh.2), getN_out st n hn] at hm
    exact absurd hm (List.not_mem_nil c)

theorem removeFirstStale_clean (st : Store) (n : Nat) :
    ∀ l, removeFirstStale st n l = .ok none →
      ∀ cid, Child.node cid ∈ l → (getN st cid).parent = some n := by
  intro l
  induction l with
  | nil =>
    intro _ cid hm
    exact absurd hm (List.not_mem_nil _)
  | cons c0 t ih =>
    intro h cid hm
    cases c0 with
    | ident s => exact absurd h (by simp [removeFirstStale])
    | node cid' =>
      simp only [removeFirstStale] at h
      by_cases hp : (getN st cid').parent ≠ some n
      · rw [if_pos hp] at h
        exact absurd h (by simp)
      · rw [if_neg hp] at h
        have hp' : (getN st cid').parent = some n := not_not.mp hp
        cases hrt : removeFirstStale st n t with
        | error e =>
          simp only [hrt] at h
          exact absurd h (by simp)
        | ok o =>
          cases o with
          | some t' =>
            simp only [hrt] at h
            exact absurd h (by simp)
          | none =>
            rcases List.mem_cons.mp hm with hh | hh
            · rw [Child.node.inj hh]
              exact hp'
            · exact ih hrt cid hh

theorem removeFirstStale_sub (st : Store) (n : Nat) :
    ∀ l t, removeFirstStale st n l = .ok (some t) → ∀ c ∈ t, c ∈ l := by
  intro l
  induction l with
  | nil =>
    intro t h
    exact absurd h (by simp [removeFirstStale])
  | cons c0 t0 ih =>
    intro t h c hc
    cases c0 with
    | ident s => exact absurd h (by simp [removeFirstStale])
    | node cid =>
      simp only [removeFirstStale] at h
      by_cases hp : (getN st cid).parent ≠ some n
      · rw [if_pos hp] at h
        injection h with h2
        injection h2 with h3
        rw [← h3] at hc
        exact List.mem_cons_of_mem _ hc
      · rw [if_neg hp] at h
        cases hrt : removeFirstStale st n t0 with
        | error e =>
          simp only [hrt] at h
          exact absurd h (by simp)
        | ok o =>
          cases o with
          | none =>
            simp only [hrt] at h
            exact absurd h (by simp)
          | some t' =>
            simp only [hrt] at h
            injection h with h2
            injection h2 with h3
            rw [← h3] at hc
            rcases List.mem_cons.mp hc with hh | hh
            · rw [hh]
              exact List.mem_cons_self _ _
            · exact List.mem_cons_of_mem _ (ih t' hrt c hh)

theorem clipLoop_sub (st : Store) (n : Nat) :
    ∀ budget cs cs', clipLoop st n budget cs = .ok cs' → ∀ c ∈ cs', c ∈ cs := by
  intro budget
  induction budget with
  | zero =>
    intro cs cs' h
    exact absurd h (by simp [clipLoop])
  | succ b ih =>
    intro cs cs' h c hc
    rw [show clipLoop st n (b + 1) cs =
      (match removeFirstStale st n cs with
       | .error e => .error e
       | .ok none => .ok cs
       | .ok (some cs2) => clipLoop st n b cs2) from rfl] at h
    cases hr : removeFirstStale st n cs with
    | error e =>
      simp only [hr] at h
      exact absurd h (by simp)
    | ok o =>
      cases o with
      | none =>
        simp only [hr] at h
        injection h with h2
        rw [← h2] at hc
        exact hc
      | some cs2 =>
        simp only [hr] at h
        exact removeFirstStale_sub st n cs cs2 hr c (ih cs2 cs' h c hc)

theorem clipLoop_clean (st : Store) (n : Nat) :
    ∀ budget cs cs', clipLoop st n budget cs = .ok cs' →
      ∀ cid, Child.node cid ∈ cs' → (getN st cid).parent = some n := by
  intro budget
  induction budget with
  | zero =>
    intro cs cs' h
    exact absurd h (by simp [clipLoop])
  | succ b ih =>
    intro cs cs' h cid hm
    rw [show clipLoop st n (b + 1) cs =
      (match removeFirstStale st n cs with
       | .error e => .error e
       | .ok none => .ok cs
       | .ok (some cs2) => clipLoop st n b cs2) from rfl] at h
    cases hr : removeFirstStale st n cs with
    | error e =>
      simp only [hr] at h
      exact absurd h (by simp)
    | ok o =>
      cases o with
      | none =>
        simp only [hr] at h
        injection h with h2
        rw [← h2] at hm
        exact removeFirstStale_clean st n cs hr cid hm
      | some cs2 =>
        simp only [hr] at h
        exact ih cs2 cs' h cid hm

theorem Pathn_mono {st st' : Store}
    (hsub : ∀ m c, c ∈ (getN st' m).children → c ∈ (getN st m).children) :
    ∀ {a b k}, Pathn st' a b k → Pathn st a b k := by
  intro a b k p
  induction p with
  | refl n => exact Pathn.refl n
  | step hm _ ih => exact Pathn.step (hsub _ _ hm) ih

theorem Coh_mono {st st' : Store}
    (hpar : ∀ m, (getN st' m).parent = (getN st m).parent)
    (hsub : ∀ m c, c ∈ (getN st' m).children → c ∈ (getN st m).children)
    {n : Nat} (h : Coh st n) : Coh st' n := by
  intro cid hm
  rw [hpar]
  exact h cid (hsub _ _ hm)

theorem TreeCoh_mono {st st' : Store}
    (hpar : ∀ m, (getN st' m).parent = (getN st m).parent)
    (hsub : ∀ m c, c ∈ (getN st' m).children → c ∈ (getN st m).children)
    {x : Nat} (h : TreeCoh st x) : TreeCoh st' x := by
  intro m hm
  obtain ⟨k, p⟩ := hm
  exact Coh_mono hpar hsub (h m ⟨k, Pathn_mono hsub p⟩)

theorem Pathn_snoc {st : Store} : ∀ {a b k c}, Pathn st a b k →
    Child.node c ∈ (getN st b).children → Pathn st a c (k + 1) := by
  intro a b k c p
  induction p with
  | refl n =>
    intro hm
    exact Pathn.step hm (Pathn.refl c)
  | step hm' _ ih =>
    intro hm
    exact Pathn.step hm' (ih hm)

theorem Pathn_trans {st : Store} : ∀ {a b i}, Pathn st a b i →
    ∀ {c j}, Pathn st b c j → Pathn st a c (i + j) := by
  intro a b i p
  induction p with
  | refl n =>
    intro c j q
    simpa using q
  | step hm _ ih =>
    intro c j q
    have h2 := Pathn.step hm (ih q)
    rwa [Nat.add_right_comm] at h2

theorem Pathn_cycle_pump {st : Store} {n j : Nat} (hc : Pathn st n n (j + 1)) :
    ∀ t, ∃ k, t ≤ k ∧ Pathn st n n k := by
  intro t
  induction t with
  | zero => exact ⟨0, Nat.le_refl 0, Pathn.refl n⟩
  | succ t ih =>
    obtain ⟨k, hk, p⟩ := ih
    exact ⟨j + 1 + k, by omega, Pathn_trans hc p⟩

theorem Pathn_cases {st : Store} {a b k : Nat} (p : Pathn st a b k) :
    a = b ∨ ∃ c k', Child.node c ∈ (getN st a).children ∧ Pathn st c b k' := by
  cases p with
  | refl => exact Or.inl rfl
  | step hm p' => exact Or.inr ⟨_, _, hm, p'⟩

/-- The clip walk only deletes child entries, never changes a parent
reference, and leaves every node reachable from its entry point edge
coherent. -/
theorem clip_run_post : ∀ fuel (st : Store) (task : ClipTask) (st' : Store),
    clip_run fuel st task = .ok st' →
    (∀ m, (getN st' m).parent = (getN st m).parent) ∧
    (∀ m c, c ∈ (getN st' m).children → c ∈ (getN st m).children) ∧
    (match task with
     | .node n => TreeCoh st' n
     | .kids cs => ∀ cid, Child.node cid ∈ cs → TreeCoh st' cid) := by
  intro fuel
  induction fuel with
  | zero =>
    intro st task st' h
    exact absurd h (by simp [clip_run])
  | succ fuel ih =>
    intro st task st' h
    cases task with
    | node n =>
      rw [show clip_run (fuel + 1) st (.node n) =
        (match clipLoop st n ((getN st n).children.length + 1) (getN st n).children with
         | .error e => .error e
         | .ok cs => clip_run fuel (setN st n { getN st n with children := cs }) (.kids cs))
        from rfl] at h
      cases hcl : clipLoop st n ((getN st n).children.length + 1) (getN st n).children with
      | error e =>
        simp only [hcl] at h
        exact absurd h (by simp)
      | ok cs =>
        simp only [hcl] at h
        obtain ⟨ha, hb, hkids⟩ := ih _ _ _ h
        have hpar1 : ∀ m, (getN (setN st n { getN st n with children := cs }) m).parent =
            (getN st m).parent := by
          intro m
          rw [getN_setN]
          by_cases hmn : m = n ∧ n < st.length
          · rw [if_pos hmn, hmn.1]
          · rw [if_neg hmn]
        have hsub1 : ∀ m c, c ∈ (getN (setN st n { getN st n with children := cs }) m).children →
            c ∈ (getN st m).children := by
          intro m c hm
          rw [getN_setN] at hm
          by_cases hmn : m = n ∧ n < st.length
          · rw [if_pos hmn] at hm
            rw [hmn.1]
            exact clipLoop_sub st n _ _ cs hcl c hm
          · rw [if_neg hmn] at hm
            exact hm
        have hcoh1 : Coh (setN st n { getN st n with children := cs }) n := by
          intro cid hm
          have hm' : Child.node cid ∈ cs := setN_children_mem st n cs _ hm
          rw [hpar1]
          exact clipLoop_clean st n _ _ cs hcl cid hm'
        refine ⟨?_, ?_, ?_⟩
        · intro m
          rw [ha m, hpar1 m]
        · intro m c hc
          exact hsub1 m c (hb m c hc)
        · intro m hrm
          obtain ⟨k, p⟩ := hrm
          cases p with
          | refl => exact Coh_mono ha hb hcoh1
          | step hm p' =>
            have hcs := setN_children_mem st n cs _ (hb _ _ hm)
            exact hkids _ hcs m ⟨_, p'⟩
    | kids cs =>
      cases cs with
      | nil =>
        rw [show clip_run (fuel + 1) st (.kids []) = .ok st from rfl] at h
        injection h with h2
        subst h2
        exact ⟨fun m => rfl, fun m c hc => hc, fun cid hm => absurd hm (List.not_mem_nil _)⟩
      | cons c0 rest =>
        cases c0 with
        | ident s =>
          rw [show clip_run (fuel + 1) st (.kids (.ident s :: rest)) = .error .pyError
            from rfl] at h
          exact absurd h (by simp)
        | node cid0 =>
          rw [show clip_run (fuel + 1) st (.kids (.node cid0 :: rest)) =
            (match clip_run fuel st (.node cid0) with
             | .error e => .error e
             | .ok st2 => clip_run fuel st2 (.kids rest)) from rfl] at h
          cases hA : clip_run fuel st (.node cid0) with
          | error e =>
            simp only [hA] at h
            exact absurd h (by simp)
          | ok st2 =>
            simp only [hA] at h
            obtain ⟨ha1, hb1, ht1⟩ := ih _ _ _ hA
            obtain ⟨ha2, hb2, ht2⟩ := ih _ _ _ h
            refine ⟨fun m => (ha2 m).trans (ha1 m), fun m c hc => hb1 m c (hb2 m c hc), ?_⟩
            intro cid' hm
            rcases List.mem_cons.mp hm with hh | hh
            · rw [Child.node.inj hh]
              exact TreeCoh_mono ha2 hb2 ht1
            · exact ht2 cid' hh

/-- A successful clip run bounds the length of every child-edge path
out of its entry point by the fuel it was given: an infinite descent
(a reachable cycle) would have exhausted any fuel. -/
theorem clip_run_pathBound : ∀ fuel (st : Store) (task : ClipTask) (st' : Store),
    clip_run fuel st task = .ok st' →
    (match task with
     | .node n => ∀ m k, Pathn st' n m k → k < fuel
     | .kids cs => ∀ cid, Child.node cid ∈ cs → ∀ m k, Pathn st' cid m k → k < fuel) := by
  intro fuel
  induction fuel with
  | zero =>
    intro st task st' h
    exact absurd h (by simp [clip_run])
  | succ fuel ih =>
    intro st task st' h
    cases task with
    | node n =>
      rw [show clip_run (fuel + 1) st (.node n) =
        (match clipLoop st n ((getN st n).children.length + 1) (getN st n).children with
         | .error e => .error e
         | .ok cs => clip_run fuel (setN st n { getN st n with children := cs }) (.kids cs))
        from rfl] at h
      cases hcl : clipLoop st n ((getN st n).children.length + 1) (getN st n).children with
      | error e =>
        simp only [hcl] at h
        exact absurd h (by simp)
      | ok cs =>
        simp only [hcl] at h
        have hkids := ih _ _ _ h
        obtain ⟨_, hb, _⟩ := clip_run_post fuel _ _ _ h
        intro m k p
        cases p with
        | refl => exact Nat.succ_pos fuel
        | step hm p' =>
          have hcs := setN_children_mem st n cs _ (hb _ _ hm)
          exact Nat.succ_lt_succ (hkids _ hcs _ _ p')
    | kids cs =>
      cases cs with
      | nil =>
        intro cid hm
        exact absurd hm (List.not_mem_nil _)
      | cons c0 rest =>
        cases c0 with
        | ident s =>
          rw [show clip_run (fuel + 1) st (.kids (.ident s :: rest)) = .error .pyError
            from rfl] at h
          exact absurd h (by simp)
        | node cid0 =>
          rw [show clip_run (fuel + 1) st (.kids (.node cid0 :: rest)) =
            (match clip_run fuel st (.node cid0) with
             | .error e => .error e
             | .ok st2 => clip_run fuel st2 (.kids rest)) from rfl] at h
          cases hA : clip_run fuel st (.node cid0) with
          | error e =>
            simp only [hA] at h
            exact absurd h (by simp)
          | ok st2 =>
            simp only [hA] at h
            have hbound1 := ih _ _ _ hA
            have hbound2 := ih _ _ _ h
            obtain ⟨_, hb2, _⟩ := clip_run_post fuel _ _ _ h
            intro cid' hm m k p
            rcases List.mem_cons.mp hm with hh | hh
            · have hcc : cid' = cid0 := Child.node.inj hh
              subst hcc
              exact Nat.lt_succ_of_lt (hbound1 _ _ (Pathn_mono hb2 p))
            · exact Nat.lt_succ_of_lt (hbound2 cid' hh _ _ p)

/-- C4 counterexample: "every classified Node appears exactly once in
the tree" fails in both directions.  On `unreferencedSources` the
interface `A` is classified (node 1 of the module class) but the
reduced tree — everything reachable from the root — never contains it;
on `dupEdgeSources` the root retains two edges to the same interface
node, which therefore appears twice. -/
theorem c4_classified_node_not_exactly_once :
    (reduceTarget 16 unreferencedSources = .ok noRefReduced ∧
      lookupS "A" noRefReduced.classes.module = some 1 ∧
      ¬ ReachT noRefReduced.store 0 1) ∧
    (reduceTarget 16 dupEdgeSources = .ok dupEdgeReduced ∧
      lookupS "A" dupEdgeReduced.classes.module = some 1 ∧
      (getN dupEdgeReduced.store 0).children = [.node 1, .node 1]) := by
  refine ⟨⟨by decide, by decide, ?_⟩, by decide, by decide, by decide⟩
  rintro ⟨k, p⟩
  rcases Pathn_cases p with h01 | ⟨c, k', hm, _⟩
  · exact absurd h01 (by decide)
  · rw [show (getN noRefReduced.store 0).children = [] from rfl] at hm
    exact absurd hm (List.not_mem_nil _)

/-- C4 (amended): after a successful clip pass from `root`, (1) every
retained child edge of every node reachable from the root points at a
child whose parent reference is that node; (2) the reachable structure
is acyclic — no reachable node lies on a nonempty child-edge cycle;
(3) no reachable node retains an edge back to the root, so the root is
the unique entry point; and (4) a node retained as a child of two
reachable nodes is retained by one node only — ownership is unique. -/
theorem c4_clip_coherent_acyclic_unique (fuel : Nat) (st : Store) (root : Nat) (st' : Store)
    (h : clip_redundant fuel st root = .ok st') :
    (∀ n cid, ReachT st' root n → Child.node cid ∈ (getN st' n).children →
      (getN st' cid).parent = some n) ∧
    (∀ n j, ReachT st' root n → ¬ Pathn st' n n (j + 1)) ∧
    (∀ n, ReachT st' root n → Child.node root ∉ (getN st' n).children) ∧
    (∀ m n n', ReachT st' root n → ReachT st' root n' →
      Child.node m ∈ (getN st' n).children → Child.node m ∈ (getN st' n').children →
      n = n') := by
  have hpost := clip_run_post fuel st (.node root) st' h
  have hcoh : TreeCoh st' root := hpost.2.2
  have hbound : ∀ m k, Pathn st' root m k → k < fuel :=
    clip_run_pathBound fuel st (.node root) st' h
  refine ⟨?_, ?_, ?_, ?_⟩
  · intro n cid hr hm
    exact hcoh n hr cid hm
  · intro n j hr hcyc
    obtain ⟨i, pi⟩ := hr
    obtain ⟨k, hk, pk⟩ := Pathn_cycle_pump hcyc fuel
    have hlt := hbound n (i + k) (Pathn_trans pi pk)
    omega
  · intro n hr hm
    obtain ⟨i, pi⟩ := hr
    have hcyc : Pathn st' root root (i + 1) := Pathn_snoc pi hm
    obtain ⟨k, hk, pk⟩ := Pathn_cycle_pump hcyc fuel
    have hlt := hbound root k pk
    omega
  · intro m n n' hr hr' hm hm'
    have h1 := hcoh n hr m hm
    have h2 := hcoh n' hr' m hm'
    rw [h1] at h2
    exact Option.some.inj h2

theorem c4_witness :
    clip_redundant 8 diamondFilled 0 = .ok diamondClipped ∧
    (getN diamondClipped 1).parent = some 0 := by
  have hb : clip_redundant 8 diamondFilled 0 = .ok diamondClipped := by decide
  exact ⟨hb, (c4_clip_coherent_acyclic_unique 8 diamondFilled 0 diamondClipped hb).1 0 1
    ⟨0, Pathn.refl 0⟩ (by decide)⟩

end Baker
